import Mathlib

/-!
Verification of the git-backport commit-correlation core.

The Rust sources are shallowly embedded here.  String manipulation is
modelled at the `List Char` level: each Rust `str` primitive used by the
program (`trim`, `split_whitespace`, `lines`, `starts_with`,
`strip_prefix`, byte length, `join`) gets an executable Lean counterpart
operating on `String.data`.  The external `git` binary is modelled as an
oracle (`Vcs`): one field per subprocess query shape, returning `Option
String` (`none` = non-zero exit status, `some out` = captured stdout).
-/

/-! ## Char-level primitives modelling Rust `str` operations -/

/-- Model of Rust `str::split_whitespace` run on a char list: maximal runs of
non-whitespace characters, empty pieces discarded.  `acc` is the token being
accumulated. -/
def wsSplitChars : List Char → List Char → List (List Char)
  | [], acc => if acc = [] then [] else [acc]
  | c :: cs, acc =>
    if c.isWhitespace then
      if acc = [] then wsSplitChars cs [] else acc :: wsSplitChars cs []
    else wsSplitChars cs (acc ++ [c])

/-- Strip one trailing carriage return, as Rust `str::lines` does on each
`\n`-terminated line. -/
def stripCr (l : List Char) : List Char :=
  if l.getLast? = some '\r' then l.dropLast else l

/-- Model of Rust `str::lines` on a char list: split at `'\n'`, strip a `'\r'`
before each `'\n'`, and do not produce a final empty piece for a trailing
newline. -/
def linesChars : List Char → List Char → List (List Char)
  | [], acc => if acc = [] then [] else [acc]
  | c :: cs, acc =>
    if c = '\n' then stripCr acc :: linesChars cs []
    else linesChars cs (acc ++ [c])

/-- Join pieces with a separator (model of Rust `slice::join`). -/
def joinSep (sep : List Char) : List (List Char) → List Char
  | [] => []
  | [x] => x
  | x :: y :: ys => x ++ sep ++ joinSep sep (y :: ys)

/-- Model of Rust `str::trim`: drop whitespace from both ends. -/
def trimChars (l : List Char) : List Char :=
  ((l.dropWhile Char.isWhitespace).reverse.dropWhile Char.isWhitespace).reverse

def trimS (s : String) : String := ⟨trimChars s.data⟩

/-- Model of Rust `str::starts_with` for string arguments. -/
def strStartsWith (s pre : String) : Bool := pre.data.isPrefixOf s.data

/-- Model of Rust `str::strip_prefix` in contexts where the caller has already
checked `starts_with`. -/
def dropLead (pre s : String) : String := ⟨s.data.drop pre.data.length⟩

/-- Rust `content.lines()` as a list of `String`s. -/
def rustLines (s : String) : List String := (linesChars s.data []).map String.mk

/-- Rust `line.split_whitespace().collect::<Vec<_>>()`. -/
def tokensOf (s : String) : List String := (wsSplitChars s.data []).map String.mk

/-- Rust `parts.join(" ")`. -/
def joinSpaceS (parts : List String) : String :=
  ⟨joinSep [' '] (parts.map String.data)⟩

/-- Rust `str::len` (UTF-8 byte length). -/
def byteLen (s : String) : Nat := s.data.foldl (fun n c => n + c.utf8Size) 0

/-! ## The git oracle

Each field models one shape of subprocess invocation appearing in the
sources.  A `none` result models a non-zero exit status; `some out` models a
successful exit with stdout `out`. -/

structure Vcs where
  /-- `git rev-parse <hash>` -/
  revParse : String → Option String
  /-- `git log --format=%s -n 1 <hash>` -/
  subjectOf : String → Option String
  /-- `git log --format=%B -n 1 <hash>` -/
  bodyOf : String → Option String
  /-- `git log --format=%H --grep <pattern> <range-or-ref>` -/
  logGrep : String → String → Option String
  /-- `git merge-base --is-ancestor <candidate> <ref>` (exit status) -/
  isAncestor : String → String → Bool
  /-- `git rev-list --reverse <range>` -/
  revList : String → Option String

/-! ## CommitInfo (src/utils/commits.rs) -/

structure CommitInfo where
  hash : String
  change_id : Option String
  title : Option String
deriving DecidableEq, Repr

def CommitInfo.from_hash (hash : String) : CommitInfo :=
  { hash := hash, change_id := none, title := none }

/-- The token test from `CommitInfo::parse_line`:
`part.starts_with("I") && part.len() == 41`. -/
def isCidTok (t : String) : Bool := strStartsWith t "I" && byteLen t == 41

/-- The token loop of `CommitInfo::parse_line`: state is
`(change_id, title_parts)`. -/
def parseParts : List String → Option String × List String →
    Option String × List String
  | [], st => st
  | p :: ps, (cid, tp) =>
    if isCidTok p then parseParts ps (some p, tp)
    else parseParts ps (cid, tp ++ [p])

/-- `CommitInfo::parse_line` from src/utils/commits.rs. -/
def CommitInfo.parse_line (line : String) : Except String CommitInfo :=
  let line := trimS line
  if line = "" then .error "Empty line"
  else
    match tokensOf line with
    | [] => .error "No commit hash found"
    | hash :: rest =>
      let st := parseParts rest (none, [])
      .ok { hash := hash, change_id := st.1,
            title := if st.2 = [] then none else some (joinSpaceS st.2) }

/-- `CommitInfo::to_line` from src/utils/commits.rs. -/
def CommitInfo.to_line (ci : CommitInfo) : String :=
  joinSpaceS ([ci.hash] ++
    (match ci.change_id with | some c => [c] | none => []) ++
    (match ci.title with | some t => [t] | none => []))

/-- `CommitInfo::expand_hash_to_full`. -/
def expand_hash_to_full (vcs : Vcs) (ci : CommitInfo) : CommitInfo :=
  if byteLen ci.hash = 40 then ci
  else
    match vcs.revParse ci.hash with
    | none => ci
    | some out =>
      let full := trimS out
      if byteLen full = 40 then { ci with hash := full } else ci

/-- `CommitInfo::fetch_title_if_missing`. -/
def fetch_title_if_missing (vcs : Vcs) (ci : CommitInfo) : CommitInfo :=
  let ci := expand_hash_to_full vcs ci
  if ci.title.isSome then ci
  else
    match vcs.subjectOf ci.hash with
    | none => ci
    | some out =>
      let t := trimS out
      if t = "" then ci else { ci with title := some t }

/-- The message scan in `CommitInfo::fetch_change_id_if_missing`: first line
starting with `Change-Id: I`. -/
def findChangeIdLine : List String → Option String
  | [] => none
  | l :: ls =>
    if strStartsWith l "Change-Id: I" then some (trimS (dropLead "Change-Id: " l))
    else findChangeIdLine ls

/-- `CommitInfo::fetch_change_id_if_missing`. -/
def fetch_change_id_if_missing (vcs : Vcs) (ci : CommitInfo) : CommitInfo :=
  if ci.change_id.isSome then ci
  else
    match vcs.bodyOf ci.hash with
    | none => ci
    | some body =>
      match findChangeIdLine (rustLines body) with
      | some cid => { ci with change_id := some cid }
      | none => ci

/-- The enrichment sequence used by `write_to_file` and the fix command:
Change-Id first, then title. -/
def enrich (vcs : Vcs) (ci : CommitInfo) : CommitInfo :=
  fetch_title_if_missing vcs (fetch_change_id_if_missing vcs ci)

/-! ## Commit list codec (src/utils/commits.rs, CommitEntry / CommitsParser) -/

structure CommitEntry where
  comments : List String
  commit : CommitInfo
deriving DecidableEq, Repr

def CommitEntry.with_comments (commit : CommitInfo) (comments : List String) :
    CommitEntry :=
  { comments := comments, commit := commit }

/-- `CommitEntry::to_lines`. -/
def CommitEntry.to_lines (e : CommitEntry) : List String :=
  e.comments ++ [e.commit.to_line]

/-- The modeline test in `CommitsParser::read_from_file`:
`line.trim().starts_with("# vim:") || line.trim().starts_with("# vi:")`. -/
def isModelineStr (l : String) : Bool :=
  strStartsWith (trimS l) "# vim:" || strStartsWith (trimS l) "# vi:"

/-- The leading-modeline extraction loop of `CommitsParser::read_from_file`. -/
def extractModelines : List String → List String × List String
  | [] => ([], [])
  | l :: ls =>
    if isModelineStr l then
      let p := extractModelines ls
      (l :: p.1, p.2)
    else ([], l :: ls)

/-- The main line-classification loop of `CommitsParser::read_from_file`.
State: pending comment buffer and accumulated entries.  A blank line is kept
in the buffer only if the buffer is non-empty or the line is not the last
one, mirroring `!current_comments.is_empty() || line_idx + 1 < lines.len()`. -/
def processLines : List String → List String → List CommitEntry → List CommitEntry
  | [], _, entries => entries
  | l :: ls, comments, entries =>
    let t := trimS l
    if t = "" then
      if comments = [] && ls = [] then processLines ls comments entries
      else processLines ls (comments ++ [l]) entries
    else if strStartsWith t "#" then processLines ls (comments ++ [l]) entries
    else
      match CommitInfo.parse_line t with
      | .ok c =>
        processLines ls [] (entries ++ [CommitEntry.with_comments c comments])
      | .error _ => processLines ls (comments ++ [l]) entries

/-- `CommitsParser::read_from_file`, with the file contents passed in place
of the filesystem read. -/
def read_from_file (content : String) :
    Except String (List String × List CommitEntry) :=
  let lines := rustLines content
  let p := extractModelines lines
  let entries := processLines p.2 [] []
  if entries = [] then .error "No commits found in file" else .ok (p.1, entries)

/-- The entries `read_from_file` accumulates for a given file content. -/
def entriesOf (content : String) : List CommitEntry :=
  processLines (extractModelines (rustLines content)).2 [] []

/-- The lines `CommitsParser::write_to_file` emits. -/
def writeLines (vcs : Vcs) (modelines : List String) (entries : List CommitEntry) :
    List String :=
  (if modelines = [] then ["# vim: ft=gitbackportcommits"] else modelines) ++
  entries.flatMap (fun e => (CommitEntry.with_comments (enrich vcs e.commit) e.comments).to_lines)

/-- `CommitsParser::write_to_file`, returning the written file contents:
`all_lines.join("\n") + "\n"`. -/
def write_to_file (vcs : Vcs) (modelines : List String) (entries : List CommitEntry) :
    String :=
  ⟨joinSep ['\n'] ((writeLines vcs modelines entries).map String.data) ++ ['\n']⟩

/-! ## Topological sorter (src/commands/sort.rs) -/

/-- The inner membership scan of `sort_commits_topologically`: first remaining
target that is a bidirectional prefix match of the ancestry entry. -/
def findMatch (commit : String) : List String → Option String
  | [] => none
  | t :: ts =>
    if strStartsWith commit t || strStartsWith t commit then some t
    else findMatch commit ts

/-- The walk over the `git rev-list --topo-order` output in
`sort_commits_topologically`.  State: output list and remaining target set
(the Rust `HashSet` is modelled as a duplicate-free list). -/
def sortWalk : List String → List String → List String → List String × List String
  | [], sorted, remaining => (sorted, remaining)
  | line :: rest, sorted, remaining =>
    let commit := trimS line
    if commit = "" then sortWalk rest sorted remaining
    else if remaining = [] then sortWalk rest sorted remaining
    else
      match findMatch commit remaining with
      | some m => sortWalk rest (sorted ++ [m]) (remaining.erase m)
      | none => sortWalk rest sorted remaining

/-- `sort_commits_topologically` from src/commands/sort.rs, parameterised by
the ancestry feed (the line list the `git rev-list --topo-order <ref>`
subprocess printed; a failure of that subprocess is propagated as a distinct
error before this algorithm runs and is outside this model).  The error
payload is the list of unconsumed targets reported in the
`Some commits not found` message. -/
def sort_commits_topologically (input_commits : List String) (feed : List String) :
    Except (List String) (List String) :=
  let res := sortWalk feed [] input_commits.dedup
  if res.2 = [] then .ok res.1 else .error res.2

/-- Position of the first occurrence of `a` in a list (statement helper). -/
def feedIdx (a : String) : List String → Nat
  | [] => 0
  | x :: xs => if x = a then 0 else feedIdx a xs + 1

/-! ## Fix command (src/commands/fix.rs) -/

/-- `&hash[..std::cmp::min(7, hash.len())]` (hashes are ASCII). -/
def shortHash (s : String) : String := ⟨s.data.take 7⟩

/-- The `for line in output { trim; skip empty }` pattern used on every
captured hash list. -/
def nonEmptyTrimmedLines (out : String) : List String :=
  (rustLines out).filterMap (fun l =>
    let t := trimS l
    if t = "" then none else some t)

/-- The `success && !stdout.trim().is_empty()` test applied to grep queries. -/
def grepHit (vcs : Vcs) (pattern range : String) : Bool :=
  match vcs.logGrep pattern range with
  | none => false
  | some out => trimS out != ""

/-- `get_commits_in_range` from src/commands/fix.rs. -/
def get_commits_in_range (vcs : Vcs) (base head : String) :
    Except String (List CommitInfo) :=
  match vcs.revList (base ++ ".." ++ head) with
  | none => .error "git rev-list failed"
  | some out => .ok ((nonEmptyTrimmedLines out).map CommitInfo.from_hash)

/-- `get_was_change_ids` from src/commands/fix.rs. -/
def get_was_change_ids (vcs : Vcs) (commit_hash : String) : List String :=
  match vcs.bodyOf commit_hash with
  | none => []
  | some body =>
    (rustLines body).filterMap (fun l =>
      if strStartsWith l "Was-Change-Id: I" then
        some (trimS (dropLead "Was-Change-Id: " l))
      else none)

/-- `find_commit_by_change_id` from src/commands/fix.rs: first non-empty
line of the grep output. -/
def find_commit_by_change_id (vcs : Vcs) (change_id ref_branch : String) :
    Option String :=
  match vcs.logGrep ("Change-Id: " ++ change_id) ref_branch with
  | none => none
  | some out => (nonEmptyTrimmedLines out).head?

/-- `find_all_original_commits` from src/commands/fix.rs. -/
def find_all_original_commits (vcs : Vcs) (ci : CommitInfo) (ref_branch : String) :
    List String :=
  let init :=
    match ci.change_id with
    | some cid => (find_commit_by_change_id vcs cid ref_branch).toList
    | none => []
  (get_was_change_ids vcs ci.hash).foldl (fun found wcid =>
    match find_commit_by_change_id vcs wcid ref_branch with
    | some original => if found.contains original then found else found ++ [original]
    | none => found) init

/-- `is_commit_already_applied` from src/commands/fix.rs. -/
def is_commit_already_applied (vcs : Vcs) (ci : CommitInfo) (base : String) : Bool :=
  if vcs.isAncestor ci.hash "HEAD" then true
  else
    let byCid :=
      match ci.change_id with
      | some cid => grepHit vcs ("Change-Id: " ++ cid) (base ++ "..HEAD")
      | none => false
    if byCid then true
    else
      grepHit vcs ("cherry picked from commit " ++ ci.hash) (base ++ "..HEAD") ||
      grepHit vcs ("cherry picked from commit " ++ shortHash ci.hash) (base ++ "..HEAD")

/-- The enriched hits of the `Fixes:` grep in `find_fixes_for_commit`, before
the already-applied filtering. -/
def candidate_fixes (vcs : Vcs) (original_commit ref_branch : String) :
    List CommitInfo :=
  match vcs.logGrep ("Fixes: " ++ shortHash original_commit)
      (original_commit ++ ".." ++ ref_branch) with
  | none => []
  | some out => (nonEmptyTrimmedLines out).map (fun t => enrich vcs (CommitInfo.from_hash t))

/-- `find_fixes_for_commit` from src/commands/fix.rs. -/
def find_fixes_for_commit (vcs : Vcs) (original_commit ref_branch base : String) :
    List CommitInfo :=
  match vcs.logGrep ("Fixes: " ++ shortHash original_commit)
      (original_commit ++ ".." ++ ref_branch) with
  | none => []
  | some out =>
    (nonEmptyTrimmedLines out).foldl (fun acc t =>
      let ci := enrich vcs (CommitInfo.from_hash t)
      if is_commit_already_applied vcs ci base then acc else acc ++ [ci]) []

/-- `find_references_for_commit` from src/commands/fix.rs. -/
def find_references_for_commit (vcs : Vcs) (original_commit ref_branch : String) :
    List String :=
  match vcs.logGrep (shortHash original_commit)
      (original_commit ++ ".." ++ ref_branch) with
  | none => []
  | some out => nonEmptyTrimmedLines out

/-- The hash extracted from a `Fixes:` line by `is_explicit_fix`:
`fixes_part.split_whitespace().next().unwrap_or("")`. -/
def fixesHashOf (trimmedLine : String) : String :=
  (tokensOf (dropLead "Fixes: " trimmedLine)).headD ""

/-- `is_explicit_fix` from src/commands/fix.rs. -/
def is_explicit_fix (vcs : Vcs) (commit_hash original_commit : String) : Bool :=
  match vcs.bodyOf commit_hash with
  | none => false
  | some body =>
    (rustLines body).any (fun l =>
      let t := trimS l
      if strStartsWith t "Fixes: " then
        strStartsWith original_commit (fixesHashOf t) ||
        strStartsWith (fixesHashOf t) original_commit
      else false)

/-- The references the fix command warns about (lines 67-83 of
src/commands/fix.rs): every reference that is not an explicit fix. -/
def audit_warned_references (vcs : Vcs) (original_commit ref_branch : String) :
    List String :=
  (find_references_for_commit vcs original_commit ref_branch).filter
    (fun r => !(is_explicit_fix vcs r original_commit))

/-- Comparator of the final `fix_commits.sort_by(|a, b| a.hash.cmp(&b.hash))`. -/
def hashLe (a b : CommitInfo) : Prop := a.hash ≤ b.hash

instance : DecidableRel hashLe := fun a b =>
  inferInstanceAs (Decidable (a.hash ≤ b.hash))

instance : IsTotal CommitInfo hashLe := ⟨fun a b => le_total a.hash b.hash⟩

instance : IsTrans CommitInfo hashLe := ⟨fun _ _ _ h1 h2 => le_trans h1 h2⟩

/-- `fix_commits.dedup_by(|a, b| a.hash == b.hash)`: collapse adjacent equal
hashes, keeping the first element of each run. -/
def dedupByHash : List CommitInfo → List CommitInfo
  | [] => []
  | [x] => [x]
  | x :: y :: rest =>
    if x.hash = y.hash then dedupByHash (x :: rest) else x :: dedupByHash (y :: rest)
termination_by l => l.length

/-- The final deduplication of the fix command: sort by hash, then collapse
adjacent equal hashes. -/
def dedup_fix_commits (l : List CommitInfo) : List CommitInfo :=
  dedupByHash (List.insertionSort hashLe l)

/-- The per-range-commit work of `fix::command`: enrich, find all originals,
and collect fixes across all of them. -/
def process_range_commit (vcs : Vcs) (ref_branch base : String) (ci : CommitInfo) :
    List CommitInfo :=
  let c := enrich vcs ci
  (find_all_original_commits vcs c ref_branch).flatMap
    (fun o => find_fixes_for_commit vcs o ref_branch base)

/-- `fix::command`, with stdout modelled as the returned list of printed
lines (audit warnings go to the log stream, not stdout, and are modelled by
`audit_warned_references`). -/
def fix_command (vcs : Vcs) (base ref_branch : String) :
    Except String (List String) :=
  match get_commits_in_range vcs base "HEAD" with
  | .error e => .error e
  | .ok commits =>
    if commits = [] then .ok []
    else
      let fixes := commits.flatMap (process_range_commit vcs ref_branch base)
      .ok ("# vim: ft=gitbackportcommits" ::
        (dedup_fix_commits fixes).map CommitInfo.to_line)

/-! ## Statement helpers -/

/-- `lastOr l d` is the last element of `l` if there is one, else `d`. -/
def lastOr (l : List String) (d : Option String) : Option String :=
  match l.getLast? with
  | some x => some x
  | none => d

/-- A line the reader classifies as part of a comment block: blank after
trimming, or starting with `#` after trimming. -/
def commentish (l : String) : Prop :=
  trimS l = "" ∨ strStartsWith (trimS l) "#" = true

/-- A whitespace-free non-empty token. -/
def wsFreeTok (t : String) : Prop :=
  t ≠ "" ∧ ∀ c ∈ t.data, c.isWhitespace = false

/-- Structural facts about a `CommitInfo` produced by `parse_line` on a
non-comment line, used for serialisation round trips. -/
def commitWF (c : CommitInfo) : Prop :=
  wsFreeTok c.hash ∧ c.hash.data.head? ≠ some '#' ∧
  (∀ x, c.change_id = some x → isCidTok x = true ∧ wsFreeTok x) ∧
  (∀ t, c.title = some t → ∃ toks, toks ≠ [] ∧
    (∀ tk ∈ toks, wsFreeTok tk ∧ isCidTok tk = false) ∧ t = joinSpaceS toks)

def entryWF (e : CommitEntry) : Prop :=
  (∀ l ∈ e.comments, commentish l) ∧ commitWF e.commit

/-- A grep query that succeeded with non-blank output. -/
def grepNonempty (vcs : Vcs) (pattern range : String) : Prop :=
  ∃ out, vcs.logGrep pattern range = some out ∧ trimS out ≠ ""

/-! ## Concrete oracles for witnesses -/

/-- An oracle on which every subprocess fails. -/
def vcsNone : Vcs :=
  { revParse := fun _ => none, subjectOf := fun _ => none,
    bodyOf := fun _ => none, logGrep := fun _ _ => none,
    isAncestor := fun _ _ => false, revList := fun _ => none }

/-- Oracle for the C9 example: original `deadbeef...` (short `deadbee`),
one later commit with a `Fixes: deadbee` trailer, one that merely mentions
the short hash. -/
def vcs9 : Vcs :=
  { revParse := fun _ => none, subjectOf := fun _ => none,
    bodyOf := fun h =>
      if h = "fix1" then some "Fix it\n\nFixes: deadbee\n"
      else if h = "ref2" then some "Mentions deadbee in passing\n"
      else none,
    logGrep := fun pat _ => if pat = "deadbee" then some "fix1\nref2\n" else none,
    isAncestor := fun _ _ => false, revList := fun _ => none }

/-- Oracle for the C10 witness: one commit in `base..HEAD`, no correlation
data, so the fix command emits the modeline and nothing else. -/
def vcs10 : Vcs :=
  { revParse := fun _ => none, subjectOf := fun _ => none,
    bodyOf := fun _ => none, logGrep := fun _ _ => none,
    isAncestor := fun _ _ => false, revList := fun _ => some "c1\n" }

/-- Oracle for the C6 witness: expansion, subject and body lookups all
answer. -/
def vcs6 : Vcs :=
  { revParse := fun h =>
      if h = "abc1234" then some "abc1234abc1234abc1234abc1234abc1234abcd\n" else none,
    subjectOf := fun _ => some "A subject line\n",
    bodyOf := fun _ => some "A subject line\n\nChange-Id: I0123456789012345678901234567890123456789\n",
    logGrep := fun _ _ => none,
    isAncestor := fun _ _ => false, revList := fun _ => none }

/-! ## Lemmas: parse_line token accounting (C3) -/

theorem lastOr_cons (p : String) (l : List String) (d : Option String) :
    lastOr (p :: l) d = lastOr l (some p) := by
  cases l with
  | nil => simp [lastOr]
  | cons q qs =>
    simp only [lastOr, List.getLast?_cons_cons]
    cases hq : (q :: qs).getLast? with
    | none => simp at hq
    | some x => rfl

theorem parseParts_eq (ps : List String) : ∀ cid tp,
    parseParts ps (cid, tp) =
      (lastOr (ps.filter isCidTok) cid,
       tp ++ ps.filter (fun t => !(isCidTok t))) := by
  induction ps with
  | nil => intro cid tp; simp [parseParts, lastOr]
  | cons p ps ih =>
    intro cid tp
    by_cases h : isCidTok p = true
    · simp only [parseParts, h, if_true, ih, List.filter_cons, h, lastOr_cons,
        Bool.not_true]
      simp [lastOr_cons]
    · have hb : isCidTok p = false := by
        cases hv : isCidTok p
        · rfl
        · exact absurd hv h
      simp only [parseParts, hb, Bool.false_eq_true, if_false, ih,
        List.filter_cons, Bool.not_false]
      simp [hb, List.append_assoc]

/-- C3 helper: the shape `parse_line` gives a tokenised line. -/
theorem parse_line_eq_of_tokens (line h : String) (rest : List String)
    (hne : trimS line ≠ "")
    (htok : tokensOf (trimS line) = h :: rest) :
    CommitInfo.parse_line line =
      .ok { hash := h,
            change_id := lastOr (rest.filter isCidTok) none,
            title := if rest.filter (fun t => !(isCidTok t)) = [] then none
                     else some (joinSpaceS (rest.filter (fun t => !(isCidTok t)))) } := by
  unfold CommitInfo.parse_line
  simp only [if_neg hne, htok, parseParts_eq, List.nil_append]

/-- C3: for every non-empty commit line, `parse_line` splits the trimmed line
into whitespace-separated tokens; token 0 becomes the hash, the last later
token of exactly 41 UTF-8 bytes starting with `I` (the `^I.{40}$` shape)
becomes the Change-Id, and the remaining later tokens joined with single
spaces become the title (absent when there are none); in particular the line
`abc1234 I0123456789012345678901234567890123456789 Fix the thing` parses to
hash `abc1234`, that 41-character Change-Id, and title `Fix the thing`. -/
theorem parse_line_token_grammar (line h : String) (rest : List String)
    (hne : trimS line ≠ "")
    (htok : tokensOf (trimS line) = h :: rest) :
    CommitInfo.parse_line line =
      .ok { hash := h,
            change_id := lastOr (rest.filter isCidTok) none,
            title := if rest.filter (fun t => !(isCidTok t)) = [] then none
                     else some (joinSpaceS (rest.filter (fun t => !(isCidTok t)))) } ∧
    CommitInfo.parse_line
      "abc1234 I0123456789012345678901234567890123456789 Fix the thing" =
      .ok { hash := "abc1234",
            change_id := some "I0123456789012345678901234567890123456789",
            title := some "Fix the thing" } :=
  ⟨parse_line_eq_of_tokens line h rest hne htok, by rfl⟩

theorem parse_line_token_grammar_witness :
    trimS "a1b2c3 hello" ≠ "" ∧
    tokensOf (trimS "a1b2c3 hello") = ["a1b2c3", "hello"] ∧
    (CommitInfo.parse_line "a1b2c3 hello" =
      .ok { hash := "a1b2c3",
            change_id := lastOr (["hello"].filter isCidTok) none,
            title := if ["hello"].filter (fun t => !(isCidTok t)) = [] then none
                     else some (joinSpaceS (["hello"].filter (fun t => !(isCidTok t)))) } ∧
     CommitInfo.parse_line
      "abc1234 I0123456789012345678901234567890123456789 Fix the thing" =
      .ok { hash := "abc1234",
            change_id := some "I0123456789012345678901234567890123456789",
            title := some "Fix the thing" }) :=
  ⟨by decide, by rfl,
   parse_line_token_grammar "a1b2c3 hello" "a1b2c3" ["hello"] (by decide) (by rfl)⟩

/-! ## Lemmas: sorter (C1, C2) -/

theorem findMatch_mem (commit : String) :
    ∀ l m, findMatch commit l = some m → m ∈ l := by
  intro l
  induction l with
  | nil => intro m hm; simp [findMatch] at hm
  | cons t ts ih =>
    intro m hm
    by_cases h : (strStartsWith commit t || strStartsWith t commit) = true
    · simp [findMatch, h] at hm
      simp [hm]
    · simp [findMatch, h] at hm
      exact List.mem_cons_of_mem _ (ih m hm)

theorem sortWalk_cons (line : String) (rest s r : List String) :
    sortWalk (line :: rest) s r =
      if trimS line = "" then sortWalk rest s r
      else if r = [] then sortWalk rest s r
      else match findMatch (trimS line) r with
        | some m => sortWalk rest (s ++ [m]) (r.erase m)
        | none => sortWalk rest s r := rfl

theorem sortWalk_perm (feed : List String) : ∀ sorted remaining,
    ((sortWalk feed sorted remaining).1 ++ (sortWalk feed sorted remaining).2).Perm
      (sorted ++ remaining) := by
  induction feed with
  | nil => intro s r; simp [sortWalk]
  | cons line rest ih =>
    intro s r
    rw [sortWalk_cons]
    by_cases h1 : trimS line = ""
    · simpa [h1] using ih s r
    · by_cases h2 : r = []
      · simpa [h1, h2] using ih s r
      · cases hfm : findMatch (trimS line) r with
        | none => simpa [h1, h2, hfm] using ih s r
        | some m =>
          have hm : m ∈ r := findMatch_mem _ _ _ hfm
          have h3 := ih (s ++ [m]) (r.erase m)
          have h4 : ((s ++ [m]) ++ r.erase m).Perm (s ++ r) := by
            rw [List.append_assoc]
            exact List.Perm.append_left s
              (List.singleton_append (l := r.erase m) ▸
                (List.perm_cons_erase hm).symm)
          simpa [h1, h2, hfm] using h3.trans h4

/-- C1: for every list of target hash strings and every ancestry feed, the
sorter either returns a list that is a permutation of the input target set
(the `HashSet` of targets, i.e. `targets.dedup`: each target appears exactly
once, no additions, no omissions) or fails with the `CommitsNotFound` error
whose payload names exactly the unconsumed targets (the walk output plus the
reported missing targets is again a permutation of the input target set), in
which case no sorted output is produced. -/
theorem sorter_perm_or_commitsNotFound (targets feed : List String) :
    (∀ out, sort_commits_topologically targets feed = .ok out →
        out.Perm targets.dedup) ∧
    (∀ missing, sort_commits_topologically targets feed = .error missing →
        missing ≠ [] ∧
        ((sortWalk feed [] targets.dedup).1 ++ missing).Perm targets.dedup) := by
  have hperm := sortWalk_perm feed [] targets.dedup
  rw [List.nil_append] at hperm
  constructor
  · intro out hout
    unfold sort_commits_topologically at hout
    by_cases h2 : (sortWalk feed [] targets.dedup).2 = []
    · rw [if_pos h2] at hout
      cases hout
      rw [h2, List.append_nil] at hperm
      exact hperm
    · rw [if_neg h2] at hout
      cases hout
  · intro missing hmiss
    unfold sort_commits_topologically at hmiss
    by_cases h2 : (sortWalk feed [] targets.dedup).2 = []
    · rw [if_pos h2] at hmiss
      cases hmiss
    · rw [if_neg h2] at hmiss
      cases hmiss
      exact ⟨h2, hperm⟩

theorem sorter_perm_or_commitsNotFound_witness :
    (["b1", "a2"] : List String).Perm (["a2", "b1"] : List String).dedup :=
  (sorter_perm_or_commitsNotFound ["a2", "b1"] ["b1", "a2"]).1 ["b1", "a2"] (by rfl)

theorem isPrefixOf_refl_chars : ∀ l : List Char, l.isPrefixOf l = true := by
  intro l
  induction l with
  | nil => rfl
  | cons c cs ih => simp [List.isPrefixOf, ih]

theorem strStartsWith_refl (s : String) : strStartsWith s s = true :=
  isPrefixOf_refl_chars s.data

theorem findMatch_eq_of_only_self (c : String) : ∀ rem : List String,
    (∀ t ∈ rem, (strStartsWith c t = true ∨ strStartsWith t c = true) → c = t) →
    findMatch c rem = if c ∈ rem then some c else none := by
  intro rem
  induction rem with
  | nil => intro _; simp [findMatch]
  | cons t ts ih =>
    intro h
    by_cases heq : c = t
    · subst heq
      simp [findMatch, strStartsWith_refl]
    · have hm : (strStartsWith c t || strStartsWith t c) = false := by
        cases hv : (strStartsWith c t || strStartsWith t c) with
        | false => rfl
        | true =>
          exact absurd (h t (List.mem_cons_self t ts) (by rwa [Bool.or_eq_true] at hv))
            heq
      have hrec := ih (fun u hu => h u (List.mem_cons_of_mem t hu))
      simp [findMatch, hm, hrec, List.mem_cons, heq]

theorem sortWalk_filter : ∀ (feed acc rem : List String),
    rem.Nodup → feed.Nodup →
    (∀ c ∈ feed, trimS c = c ∧ c ≠ "") →
    (∀ c ∈ feed, ∀ t ∈ rem,
      (strStartsWith c t = true ∨ strStartsWith t c = true) → c = t) →
    sortWalk feed acc rem =
      (acc ++ feed.filter (fun c => decide (c ∈ rem)),
       rem.filter (fun t => !decide (t ∈ feed))) := by
  intro feed
  induction feed with
  | nil => intro acc rem _ _ _ _; simp [sortWalk]
  | cons c cs ih =>
    intro acc rem hrnd hfnd htr hmatch
    have hfnd2 := List.nodup_cons.mp hfnd
    have hc := htr c (List.mem_cons_self c cs)
    rw [sortWalk_cons, hc.1, if_neg hc.2]
    by_cases hrem : rem = []
    · subst hrem
      rw [if_pos rfl,
        ih acc [] List.nodup_nil hfnd2.2 (fun x hx => htr x (List.mem_cons_of_mem c hx))
          (fun x _ t ht => absurd ht (List.not_mem_nil t))]
      simp
    · rw [if_neg hrem,
        findMatch_eq_of_only_self c rem (hmatch c (List.mem_cons_self c cs))]
      by_cases hin : c ∈ rem
      · rw [if_pos hin]
        show sortWalk cs (acc ++ [c]) (rem.erase c) = _
        rw [ih (acc ++ [c]) (rem.erase c) (hrnd.erase c) hfnd2.2
          (fun x hx => htr x (List.mem_cons_of_mem c hx))
          (fun x hx t ht => hmatch x (List.mem_cons_of_mem c hx) t
            (List.mem_of_mem_erase ht))]
        have hfst : cs.filter (fun x => decide (x ∈ rem.erase c)) =
            cs.filter (fun x => decide (x ∈ rem)) := by
          apply List.filter_congr
          intro x hx
          have hxc : x ≠ c := fun hxx => hfnd2.1 (hxx ▸ hx)
          simp [List.mem_erase_of_ne hxc]
        have hsnd : (rem.erase c).filter (fun t => !decide (t ∈ cs)) =
            rem.filter (fun t => !decide (t ∈ c :: cs)) := by
          rw [hrnd.erase_eq_filter c, List.filter_filter]
          apply List.filter_congr
          intro t _
          by_cases htc : t = c
          · subst htc; simp
          · simp [List.mem_cons, htc]
        rw [hfst, hsnd]
        have : decide (c ∈ rem) = true := by simpa using hin
        simp [List.filter_cons, this, List.append_assoc]
      · rw [if_neg hin]
        show sortWalk cs acc rem = _
        rw [ih acc rem hrnd hfnd2.2 (fun x hx => htr x (List.mem_cons_of_mem c hx))
          (fun x hx t ht => hmatch x (List.mem_cons_of_mem c hx) t ht)]
        have hfst : (c :: cs).filter (fun x => decide (x ∈ rem)) =
            cs.filter (fun x => decide (x ∈ rem)) := by
          have : decide (c ∈ rem) = false := by simpa using hin
          simp [List.filter_cons, this]
        have hsnd : rem.filter (fun t => !decide (t ∈ cs)) =
            rem.filter (fun t => !decide (t ∈ c :: cs)) := by
          apply List.filter_congr
          intro t ht
          have htc : t ≠ c := fun hh => hin (hh ▸ ht)
          simp [List.mem_cons, htc]
        rw [hfst, hsnd]

theorem filter_pairwise_feedIdx (p : String → Bool) :
    ∀ feed : List String, feed.Nodup →
    (feed.filter p).Pairwise (fun a b => feedIdx a feed < feedIdx b feed) := by
  intro feed
  induction feed with
  | nil => intro _; simp
  | cons x xs ih =>
    intro hnd
    have hnd2 := List.nodup_cons.mp hnd
    have hstep : ∀ a ∈ xs, feedIdx a (x :: xs) = feedIdx a xs + 1 := by
      intro a ha
      have hxa : x ≠ a := fun h => hnd2.1 (h ▸ ha)
      simp [feedIdx, hxa]
    have hx0 : feedIdx x (x :: xs) = 0 := by simp [feedIdx]
    have hlift : (xs.filter p).Pairwise
        (fun a b => feedIdx a (x :: xs) < feedIdx b (x :: xs)) := by
      refine List.Pairwise.imp_of_mem ?_ (ih hnd2.2)
      intro a b ha hb hab
      rw [hstep a (List.mem_of_mem_filter ha), hstep b (List.mem_of_mem_filter hb)]
      omega
    by_cases hp : p x = true
    · rw [List.filter_cons_of_pos hp]
      refine List.Pairwise.cons ?_ hlift
      intro b hb
      rw [hx0, hstep b (List.mem_of_mem_filter hb)]
      omega
    · rw [List.filter_cons_of_neg (by simpa using hp)]
      exact hlift

/-- C2: the sorter walks the ancestry feed once, so (whenever the hash forms
make bidirectional-prefix matching unambiguous, i.e. a feed entry matches a
target only if they are equal) any two resolved targets appear in the output
in feed order: the output is pairwise increasing in feed position.  In
particular, for ancestry feed `[c1, c2, c3, c4]` and input targets
`{c4, c2}`, the sorted output is `[c2, c4]`. -/
theorem sorter_respects_feed_order (targets feed out : List String)
    (hfnd : feed.Nodup)
    (htr : ∀ c ∈ feed, trimS c = c ∧ c ≠ "")
    (hmatch : ∀ c ∈ feed, ∀ t ∈ targets,
      (strStartsWith c t = true ∨ strStartsWith t c = true) → c = t)
    (hok : sort_commits_topologically targets feed = .ok out) :
    out.Pairwise (fun a b => feedIdx a feed < feedIdx b feed) ∧
    sort_commits_topologically ["c4", "c2"] ["c1", "c2", "c3", "c4"] =
      .ok ["c2", "c4"] := by
  constructor
  · have hw := sortWalk_filter feed [] targets.dedup targets.nodup_dedup hfnd htr
      (fun c hc t ht => hmatch c hc t (List.mem_dedup.mp ht))
    unfold sort_commits_topologically at hok
    rw [hw] at hok
    by_cases hmt : targets.dedup.filter (fun t => !decide (t ∈ feed)) = []
    · rw [hmt] at hok
      simp only [if_pos rfl] at hok
      cases hok
      exact filter_pairwise_feedIdx _ feed hfnd
    · simp only [if_neg hmt] at hok
      cases hok
  · rfl

theorem sorter_respects_feed_order_witness :
    (["c1", "c2", "c3", "c4"] : List String).Nodup ∧
    (["c2", "c4"] : List String).Pairwise
      (fun a b =>
        feedIdx a ["c1", "c2", "c3", "c4"] < feedIdx b ["c1", "c2", "c3", "c4"]) :=
  ⟨by decide,
   (sorter_respects_feed_order ["c4", "c2"] ["c1", "c2", "c3", "c4"] ["c2", "c4"]
     (by decide) (by decide) (by decide) (by rfl)).1⟩

/-! ## Lemmas: enrichment (C6) -/

theorem expand_of_full (vcs : Vcs) (ci : CommitInfo) (h : byteLen ci.hash = 40) :
    expand_hash_to_full vcs ci = ci := by
  unfold expand_hash_to_full
  rw [if_pos h]

theorem expand_cases (vcs : Vcs) (ci : CommitInfo) :
    expand_hash_to_full vcs ci = ci ∨
    byteLen (expand_hash_to_full vcs ci).hash = 40 := by
  unfold expand_hash_to_full
  by_cases h : byteLen ci.hash = 40
  · rw [if_pos h]; left; rfl
  · rw [if_neg h]
    cases hrp : vcs.revParse ci.hash with
    | none => left; rfl
    | some out =>
      by_cases h4 : byteLen (trimS out) = 40
      · right
        show byteLen ((if byteLen (trimS out) = 40 then
            { ci with hash := trimS out } else ci) : CommitInfo).hash = 40
        rw [if_pos h4]
        exact h4
      · left
        show (if byteLen (trimS out) = 40 then
            ({ ci with hash := trimS out } : CommitInfo) else ci) = ci
        rw [if_neg h4]

theorem expand_fields (vcs : Vcs) (ci : CommitInfo) :
    (expand_hash_to_full vcs ci).change_id = ci.change_id ∧
    (expand_hash_to_full vcs ci).title = ci.title := by
  unfold expand_hash_to_full
  by_cases h : byteLen ci.hash = 40
  · rw [if_pos h]; exact ⟨rfl, rfl⟩
  · rw [if_neg h]
    cases hrp : vcs.revParse ci.hash with
    | none => exact ⟨rfl, rfl⟩
    | some out =>
      by_cases h4 : byteLen (trimS out) = 40
      · constructor
        · show ((if byteLen (trimS out) = 40 then
              ({ ci with hash := trimS out } : CommitInfo) else ci)).change_id =
            ci.change_id
          rw [if_pos h4]
        · show ((if byteLen (trimS out) = 40 then
              ({ ci with hash := trimS out } : CommitInfo) else ci)).title = ci.title
          rw [if_pos h4]
      · constructor
        · show ((if byteLen (trimS out) = 40 then
              ({ ci with hash := trimS out } : CommitInfo) else ci)).change_id =
            ci.change_id
          rw [if_neg h4]
        · show ((if byteLen (trimS out) = 40 then
              ({ ci with hash := trimS out } : CommitInfo) else ci)).title = ci.title
          rw [if_neg h4]

theorem expand_idem (vcs : Vcs) (ci : CommitInfo) :
    expand_hash_to_full vcs (expand_hash_to_full vcs ci) =
      expand_hash_to_full vcs ci := by
  rcases expand_cases vcs ci with h | h
  · rw [h]
    exact h
  · exact expand_of_full _ _ h

theorem expand_congr_hash (vcs : Vcs) (x y : CommitInfo) (hxy : y.hash = x.hash)
    (hx : expand_hash_to_full vcs x = x) : expand_hash_to_full vcs y = y := by
  unfold expand_hash_to_full at hx ⊢
  rw [hxy]
  by_cases h : byteLen x.hash = 40
  · rw [if_pos h]
  · rw [if_neg h] at hx ⊢
    cases hrp : vcs.revParse x.hash with
    | none => rfl
    | some out =>
      rw [hrp] at hx
      by_cases h4 : byteLen (trimS out) = 40
      · simp only [if_pos h4] at hx ⊢
        have hh : trimS out = x.hash := congrArg CommitInfo.hash hx
        rw [hh, ← hxy]
      · simp only [if_neg h4]

theorem fetch_cid_of_set (vcs : Vcs) (ci : CommitInfo) (x : String)
    (h : ci.change_id = some x) : fetch_change_id_if_missing vcs ci = ci := by
  unfold fetch_change_id_if_missing
  rw [h]
  rfl

theorem fetch_cid_idem (vcs : Vcs) (ci : CommitInfo) :
    fetch_change_id_if_missing vcs (fetch_change_id_if_missing vcs ci) =
      fetch_change_id_if_missing vcs ci := by
  by_cases h1 : ci.change_id.isSome = true
  · obtain ⟨x, hx⟩ := Option.isSome_iff_exists.mp h1
    have h2 := fetch_cid_of_set vcs ci x hx
    rw [h2]
    exact h2
  · have hnone : ci.change_id = none :=
      Option.not_isSome_iff_eq_none.mp (by simpa using h1)
    cases hb : vcs.bodyOf ci.hash with
    | none =>
      have h2 : fetch_change_id_if_missing vcs ci = ci := by
        simp [fetch_change_id_if_missing, hnone, hb]
      rw [h2]
      exact h2
    | some body =>
      cases hf : findChangeIdLine (rustLines body) with
      | none =>
        have h2 : fetch_change_id_if_missing vcs ci = ci := by
          simp [fetch_change_id_if_missing, hnone, hb, hf]
        rw [h2]
        exact h2
      | some cid =>
        have h2 : fetch_change_id_if_missing vcs ci =
            { ci with change_id := some cid } := by
          simp [fetch_change_id_if_missing, hnone, hb, hf]
        rw [h2]
        exact fetch_cid_of_set vcs _ cid rfl

theorem fetch_cid_fields (vcs : Vcs) (ci : CommitInfo) :
    (fetch_change_id_if_missing vcs ci).hash = ci.hash ∧
    (fetch_change_id_if_missing vcs ci).title = ci.title := by
  unfold fetch_change_id_if_missing
  split
  · exact ⟨rfl, rfl⟩
  · split
    · exact ⟨rfl, rfl⟩
    · split
      · exact ⟨rfl, rfl⟩
      · exact ⟨rfl, rfl⟩

theorem fetch_title_idem (vcs : Vcs) (ci : CommitInfo) :
    fetch_title_if_missing vcs (fetch_title_if_missing vcs ci) =
      fetch_title_if_missing vcs ci := by
  have hee := expand_idem vcs ci
  by_cases h1 : (expand_hash_to_full vcs ci).title.isSome = true
  · have hin : fetch_title_if_missing vcs ci = expand_hash_to_full vcs ci := by
      simp only [fetch_title_if_missing]
      rw [if_pos h1]
    rw [hin]
    simp only [fetch_title_if_missing]
    rw [hee, if_pos h1]
  · cases hsub : vcs.subjectOf (expand_hash_to_full vcs ci).hash with
    | none =>
      have hin : fetch_title_if_missing vcs ci = expand_hash_to_full vcs ci := by
        simp [fetch_title_if_missing, if_neg h1, hsub]
      rw [hin]
      simp [fetch_title_if_missing, hee, if_neg h1, hsub]
    | some out =>
      by_cases hemp : trimS out = ""
      · have hin : fetch_title_if_missing vcs ci = expand_hash_to_full vcs ci := by
          simp [fetch_title_if_missing, if_neg h1, hsub, if_pos hemp]
        rw [hin]
        simp [fetch_title_if_missing, hee, if_neg h1, hsub, if_pos hemp]
      · have hin : fetch_title_if_missing vcs ci =
            { expand_hash_to_full vcs ci with title := some (trimS out) } := by
          simp [fetch_title_if_missing, if_neg h1, hsub, if_neg hemp]
        rw [hin]
        have hexp := expand_congr_hash vcs (expand_hash_to_full vcs ci)
          { expand_hash_to_full vcs ci with title := some (trimS out) } rfl hee
        simp [fetch_title_if_missing, hexp]

theorem fetch_title_of_set (vcs : Vcs) (ci : CommitInfo) (t : String)
    (h : ci.title = some t) :
    (fetch_title_if_missing vcs ci).title = some t ∧
    (fetch_title_if_missing vcs ci).change_id = ci.change_id := by
  have he := expand_fields vcs ci
  have h1 : (expand_hash_to_full vcs ci).title.isSome = true := by
    rw [he.2, h]
    rfl
  simp only [fetch_title_if_missing]
  rw [if_pos h1]
  exact ⟨by rw [he.2, h], he.1⟩

theorem fetch_title_hash_of_full (vcs : Vcs) (ci : CommitInfo)
    (h : byteLen ci.hash = 40) :
    (fetch_title_if_missing vcs ci).hash = ci.hash := by
  have hexp := expand_of_full vcs ci h
  by_cases h1 : ci.title.isSome = true
  · simp [fetch_title_if_missing, hexp, if_pos h1]
  · cases hsub : vcs.subjectOf ci.hash with
    | none => simp [fetch_title_if_missing, hexp, if_neg h1, hsub]
    | some out =>
      by_cases hemp : trimS out = ""
      · simp [fetch_title_if_missing, hexp, if_neg h1, hsub, if_pos hemp]
      · simp [fetch_title_if_missing, hexp, if_neg h1, hsub, if_neg hemp]

/-- C6: commit-record enrichment is idempotent: a second invocation of
`fetch_change_id_if_missing` or `fetch_title_if_missing` yields the record
of the first invocation unchanged; re-invoking enrichment when the field is
already set leaves that field (and, for the Change-Id fetch, the whole
record) unchanged; and once the hash is full-length (40 bytes) no call
re-expands it. -/
theorem enrichment_idempotent (vcs : Vcs) (ci : CommitInfo) :
    fetch_change_id_if_missing vcs (fetch_change_id_if_missing vcs ci) =
      fetch_change_id_if_missing vcs ci ∧
    fetch_title_if_missing vcs (fetch_title_if_missing vcs ci) =
      fetch_title_if_missing vcs ci ∧
    (∀ x, ci.change_id = some x → fetch_change_id_if_missing vcs ci = ci) ∧
    (∀ t, ci.title = some t → (fetch_title_if_missing vcs ci).title = some t ∧
      (fetch_title_if_missing vcs ci).change_id = ci.change_id) ∧
    (byteLen ci.hash = 40 → expand_hash_to_full vcs ci = ci ∧
      (fetch_title_if_missing vcs ci).hash = ci.hash ∧
      (fetch_change_id_if_missing vcs ci).hash = ci.hash) :=
  ⟨fetch_cid_idem vcs ci, fetch_title_idem vcs ci,
   fun x hx => fetch_cid_of_set vcs ci x hx,
   fun t ht => fetch_title_of_set vcs ci t ht,
   fun h => ⟨expand_of_full vcs ci h, fetch_title_hash_of_full vcs ci h,
     (fetch_cid_fields vcs ci).1⟩⟩

theorem enrichment_idempotent_witness :
    (CommitInfo.parse_line "abc1234 Fix the thing" = .ok
      { hash := "abc1234", change_id := none, title := some "Fix the thing" }) ∧
    ({ hash := "abc1234", change_id := none, title := some "Fix the thing"
       : CommitInfo }.title = some "Fix the thing" ∧
     ((fetch_title_if_missing vcs6
        { hash := "abc1234", change_id := none, title := some "Fix the thing" }).title =
          some "Fix the thing" ∧
      (fetch_title_if_missing vcs6
        { hash := "abc1234", change_id := none, title := some "Fix the thing" }).change_id =
          none)) :=
  ⟨by rfl,
   rfl,
   (enrichment_idempotent vcs6
     { hash := "abc1234", change_id := none, title := some "Fix the thing" }).2.2.2.1
     "Fix the thing" rfl⟩

/-! ## Lemmas: fix deduplication (C7) -/

theorem dedupByHash_hashes_subset : ∀ l : List CommitInfo,
    ∀ d ∈ dedupByHash l, d.hash ∈ l.map CommitInfo.hash := by
  intro l
  induction l using dedupByHash.induct with
  | case1 => intro d hd; simp [dedupByHash] at hd
  | case2 x => intro d hd; simp [dedupByHash] at hd; simp [hd]
  | case3 x y rest heq ih =>
    intro d hd
    rw [dedupByHash, if_pos heq] at hd
    have := ih d hd
    simp only [List.map_cons, List.mem_cons] at this ⊢
    tauto
  | case4 x y rest hne ih =>
    intro d hd
    rw [dedupByHash, if_neg hne] at hd
    rcases List.mem_cons.mp hd with h | h
    · simp [h]
    · have := ih d h
      simp only [List.map_cons, List.mem_cons] at this ⊢
      tauto

theorem dedupByHash_mem_hashes : ∀ l : List CommitInfo,
    ∀ c ∈ l, c.hash ∈ (dedupByHash l).map CommitInfo.hash := by
  intro l
  induction l using dedupByHash.induct with
  | case1 => intro c hc; simp at hc
  | case2 x =>
    intro c hc
    simp at hc
    simp [dedupByHash, hc]
  | case3 x y rest heq ih =>
    intro c hc
    rw [dedupByHash, if_pos heq]
    rcases List.mem_cons.mp hc with h | h
    · exact ih c (h ▸ List.mem_cons_self x rest)
    · rcases List.mem_cons.mp h with h2 | h2
      · have hx := ih x (List.mem_cons_self x rest)
        rw [h2, ← heq]
        exact hx
      · exact ih c (List.mem_cons_of_mem x h2)
  | case4 x y rest hne ih =>
    intro c hc
    rw [dedupByHash, if_neg hne]
    rcases List.mem_cons.mp hc with h | h
    · simp [h]
    · have := ih c h
      simp only [List.map_cons, List.mem_cons] at this ⊢
      tauto

theorem dedupByHash_nodup_of_sorted : ∀ l : List CommitInfo,
    List.Sorted hashLe l → ((dedupByHash l).map CommitInfo.hash).Nodup := by
  intro l
  induction l using dedupByHash.induct with
  | case1 => intro _; simp [dedupByHash]
  | case2 x => intro _; simp [dedupByHash]
  | case3 x y rest heq ih =>
    intro hs
    rw [dedupByHash, if_pos heq]
    apply ih
    rw [List.sorted_cons] at hs ⊢
    obtain ⟨hxall, hs2⟩ := hs
    rw [List.sorted_cons] at hs2
    exact ⟨fun b hb => hxall b (List.mem_cons_of_mem y hb), hs2.2⟩
  | case4 x y rest hne ih =>
    intro hs
    rw [dedupByHash, if_neg hne]
    rw [List.sorted_cons] at hs
    obtain ⟨hxall, hs2⟩ := hs
    simp only [List.map_cons, List.nodup_cons]
    constructor
    · intro hmem
      obtain ⟨d, hd, hdh⟩ := List.mem_map.mp hmem
      have hd2 : d.hash ∈ (y :: rest).map CommitInfo.hash :=
        dedupByHash_hashes_subset (y :: rest) d hd
      obtain ⟨z, hz, hzh⟩ := List.mem_map.mp hd2
      rcases List.mem_cons.mp hz with h | h
      · exact hne ((hzh.trans hdh).symm.trans (congrArg CommitInfo.hash h))
      · have h1 : hashLe x y := hxall y (List.mem_cons_self y rest)
        have h2 : hashLe y z := (List.sorted_cons.mp hs2).1 z h
        have hxz : x.hash = z.hash := (hzh.trans hdh).symm
        have : y.hash = x.hash := le_antisymm (hxz ▸ h2) h1
        exact hne this.symm
    · exact ih hs2

theorem dedup_fix_hashes_nodup (l : List CommitInfo) :
    ((dedup_fix_commits l).map CommitInfo.hash).Nodup :=
  dedupByHash_nodup_of_sorted _ (List.sorted_insertionSort hashLe l)

theorem dedup_fix_mem (l : List CommitInfo) (c : CommitInfo) (hc : c ∈ l) :
    c.hash ∈ (dedup_fix_commits l).map CommitInfo.hash :=
  dedupByHash_mem_hashes _ c ((List.perm_insertionSort hashLe l).mem_iff.mpr hc)

theorem fix_command_eq_of_nonempty (vcs : Vcs) (base ref_branch : String)
    (commits : List CommitInfo)
    (hget : get_commits_in_range vcs base "HEAD" = .ok commits)
    (hne : commits ≠ []) :
    fix_command vcs base ref_branch =
      .ok ("# vim: ft=gitbackportcommits" ::
        (dedup_fix_commits
          (commits.flatMap (process_range_commit vcs ref_branch base))).map
          CommitInfo.to_line) := by
  simp [fix_command, hget, hne]

/-- C7: the fix command aggregates the fix commits found across all originals
of all range commits (`process_range_commit` is the per-commit aggregation
over all of its originals) and deduplicates them by hash — sorting by hash
and collapsing adjacent equal hashes — so any fix commit that was collected,
even via two different original commits, contributes its hash exactly once
to the final output set, and every emitted hash comes from a collected fix. -/
theorem fix_dedup_exactly_once (l : List CommitInfo) (c : CommitInfo) (hc : c ∈ l) :
    ((dedup_fix_commits l).map CommitInfo.hash).count c.hash = 1 ∧
    (∀ d ∈ dedup_fix_commits l, d.hash ∈ l.map CommitInfo.hash) ∧
    (∀ vcs base ref_branch commits,
      get_commits_in_range vcs base "HEAD" = .ok commits → commits ≠ [] →
      fix_command vcs base ref_branch =
        .ok ("# vim: ft=gitbackportcommits" ::
          (dedup_fix_commits
            (commits.flatMap (process_range_commit vcs ref_branch base))).map
            CommitInfo.to_line)) := by
  refine ⟨?_, ?_, ?_⟩
  · exact List.count_eq_one_of_mem (dedup_fix_hashes_nodup l) (dedup_fix_mem l c hc)
  · intro d hd
    have h1 : d.hash ∈ (List.insertionSort hashLe l).map CommitInfo.hash :=
      dedupByHash_hashes_subset _ d hd
    exact (((List.perm_insertionSort hashLe l).map CommitInfo.hash).mem_iff).mp h1
  · intro vcs base ref_branch commits hget hne
    exact fix_command_eq_of_nonempty vcs base ref_branch commits hget hne

theorem fix_dedup_exactly_once_witness :
    (CommitInfo.from_hash "abc" ∈
      [CommitInfo.from_hash "abc", CommitInfo.from_hash "abc"]) ∧
    ((dedup_fix_commits
        [CommitInfo.from_hash "abc", CommitInfo.from_hash "abc"]).map
        CommitInfo.hash).count (CommitInfo.from_hash "abc").hash = 1 :=
  ⟨by decide,
   (fix_dedup_exactly_once [CommitInfo.from_hash "abc", CommitInfo.from_hash "abc"]
     (CommitInfo.from_hash "abc") (by decide)).1⟩

/-! ## Lemmas: already-applied check and fix filtering (C8) -/

theorem grepHit_iff (vcs : Vcs) (p r : String) :
    grepHit vcs p r = true ↔ grepNonempty vcs p r := by
  unfold grepHit grepNonempty
  cases h : vcs.logGrep p r with
  | none => simp
  | some out => simp [bne_iff_ne]

theorem is_applied_iff (vcs : Vcs) (ci : CommitInfo) (base : String) :
    (is_commit_already_applied vcs ci base = true ↔
      (vcs.isAncestor ci.hash "HEAD" = true ∨
       (∃ cid, ci.change_id = some cid ∧
         grepNonempty vcs ("Change-Id: " ++ cid) (base ++ "..HEAD")) ∨
       grepNonempty vcs ("cherry picked from commit " ++ ci.hash) (base ++ "..HEAD") ∨
       grepNonempty vcs ("cherry picked from commit " ++ shortHash ci.hash)
         (base ++ "..HEAD"))) := by
  by_cases han : vcs.isAncestor ci.hash "HEAD" = true
  · have hval : is_commit_already_applied vcs ci base = true := by
      simp [is_commit_already_applied, han]
    exact ⟨fun _ => Or.inl han, fun _ => hval⟩
  · have hanf : vcs.isAncestor ci.hash "HEAD" = false := by
      cases hv : vcs.isAncestor ci.hash "HEAD"
      · rfl
      · exact absurd hv han
    cases hcid : ci.change_id with
    | none =>
      have hval : is_commit_already_applied vcs ci base =
          (grepHit vcs ("cherry picked from commit " ++ ci.hash) (base ++ "..HEAD") ||
           grepHit vcs ("cherry picked from commit " ++ shortHash ci.hash)
             (base ++ "..HEAD")) := by
        simp [is_commit_already_applied, hanf, hcid]
      rw [hval]
      simp only [Bool.or_eq_true, grepHit_iff]
      constructor
      · intro h
        exact Or.inr (Or.inr h)
      · rintro (h | ⟨cid, hc, _⟩ | h)
        · rw [hanf] at h
          cases h
        · cases hc
        · exact h
    | some cid =>
      by_cases hby : grepHit vcs ("Change-Id: " ++ cid) (base ++ "..HEAD") = true
      · have hval : is_commit_already_applied vcs ci base = true := by
          simp [is_commit_already_applied, hanf, hcid, hby]
        exact ⟨fun _ => Or.inr (Or.inl ⟨cid, rfl, (grepHit_iff _ _ _).mp hby⟩),
          fun _ => hval⟩
      · have hbyf : grepHit vcs ("Change-Id: " ++ cid) (base ++ "..HEAD") = false := by
          cases hv : grepHit vcs ("Change-Id: " ++ cid) (base ++ "..HEAD")
          · rfl
          · exact absurd hv hby
        have hng : ¬ grepNonempty vcs ("Change-Id: " ++ cid) (base ++ "..HEAD") :=
          fun hg => hby ((grepHit_iff _ _ _).mpr hg)
        have hval : is_commit_already_applied vcs ci base =
            (grepHit vcs ("cherry picked from commit " ++ ci.hash) (base ++ "..HEAD") ||
             grepHit vcs ("cherry picked from commit " ++ shortHash ci.hash)
               (base ++ "..HEAD")) := by
          simp [is_commit_already_applied, hanf, hcid, hbyf]
        rw [hval]
        simp only [Bool.or_eq_true, grepHit_iff]
        constructor
        · intro h
          exact Or.inr (Or.inr h)
        · rintro (h | ⟨cid2, hc, hg⟩ | h)
          · rw [hanf] at h
            cases h
          · injection hc with hc2
            exact absurd (hc2 ▸ hg) hng
          · exact h

theorem fixes_foldl_eq_filter (vcs : Vcs) (b : String) :
    ∀ (ts : List String) (acc : List CommitInfo),
    ts.foldl (fun acc t =>
      let ci := enrich vcs (CommitInfo.from_hash t)
      if is_commit_already_applied vcs ci b then acc else acc ++ [ci]) acc =
    acc ++ (ts.map (fun t => enrich vcs (CommitInfo.from_hash t))).filter
      (fun ci => !(is_commit_already_applied vcs ci b)) := by
  intro ts
  induction ts with
  | nil => intro acc; simp
  | cons t ts ih =>
    intro acc
    by_cases h : is_commit_already_applied vcs (enrich vcs (CommitInfo.from_hash t)) b = true
    · simp only [List.foldl_cons, if_pos h, ih, List.map_cons, List.filter_cons, h,
        Bool.not_true]
      simp
    · have hf : is_commit_already_applied vcs (enrich vcs (CommitInfo.from_hash t)) b
          = false := by
        cases hv : is_commit_already_applied vcs (enrich vcs (CommitInfo.from_hash t)) b
        · rfl
        · exact absurd hv h
      simp only [List.foldl_cons, hf, Bool.false_eq_true, if_false, ih, List.map_cons,
        List.filter_cons, Bool.not_false]
      simp [List.append_assoc]

theorem find_fixes_eq_filter (vcs : Vcs) (o r b : String) :
    find_fixes_for_commit vcs o r b =
      (candidate_fixes vcs o r).filter
        (fun c => !(is_commit_already_applied vcs c b)) := by
  unfold find_fixes_for_commit candidate_fixes
  cases h : vcs.logGrep ("Fixes: " ++ shortHash o) (o ++ ".." ++ r) with
  | none => rfl
  | some out =>
    simpa using fixes_foldl_eq_filter vcs b (nonEmptyTrimmedLines out) []

/-- C8: a discovered fix commit is excluded from the fix command's result
exactly when `is_commit_already_applied` holds, and that check holds exactly
when (i) the commit is a VCS ancestor of `HEAD`, or (ii) some commit in
`base..HEAD` carries its Change-Id (queried only when the record has one), or
(iii) a message in `base..HEAD` contains a `cherry picked from commit`
provenance trailer naming its full hash or its short (7-character) hash;
`find_fixes_for_commit` returns exactly the enriched grep hits that are not
already applied. -/
theorem fixes_excluded_iff_applied (vcs : Vcs) (ci : CommitInfo) (base : String) :
    (is_commit_already_applied vcs ci base = true ↔
      (vcs.isAncestor ci.hash "HEAD" = true ∨
       (∃ cid, ci.change_id = some cid ∧
         grepNonempty vcs ("Change-Id: " ++ cid) (base ++ "..HEAD")) ∨
       grepNonempty vcs ("cherry picked from commit " ++ ci.hash) (base ++ "..HEAD") ∨
       grepNonempty vcs ("cherry picked from commit " ++ shortHash ci.hash)
         (base ++ "..HEAD"))) ∧
    (∀ original ref_branch, find_fixes_for_commit vcs original ref_branch base =
      (candidate_fixes vcs original ref_branch).filter
        (fun c => !(is_commit_already_applied vcs c base))) :=
  ⟨is_applied_iff vcs ci base,
   fun original ref_branch => find_fixes_eq_filter vcs original ref_branch base⟩

/-! ## Lemmas: reference audit (C9) -/

/-- C9: among the commits in the fix-search range whose message contains the
original's short hash (`find_references_for_commit`), the fix command warns
exactly about those that are not explicit fixes; a commit is an explicit fix
exactly when some line of its message, after trimming, starts with `Fixes: `
and the first token of the trailer value is a bidirectional prefix match of
the original's hash.  In particular, with original
`deadbeefdeadbeefdeadbeefdeadbeefdeadbeef` (short `deadbee`), a commit whose
message contains `Fixes: deadbee` is classified as an explicit fix and is not
warned about, while a commit that merely contains the substring `deadbee`
is warned about. -/
theorem audit_warning_iff_not_explicit (vcs : Vcs) (o ref r : String) :
    (r ∈ audit_warned_references vcs o ref ↔
      r ∈ find_references_for_commit vcs o ref ∧ is_explicit_fix vcs r o = false) ∧
    (is_explicit_fix vcs r o = true ↔
      ∃ body, vcs.bodyOf r = some body ∧ ∃ l ∈ rustLines body,
        strStartsWith (trimS l) "Fixes: " = true ∧
        (strStartsWith o (fixesHashOf (trimS l)) = true ∨
         strStartsWith (fixesHashOf (trimS l)) o = true)) ∧
    is_explicit_fix vcs9 "fix1" "deadbeefdeadbeefdeadbeefdeadbeefdeadbeef" = true ∧
    is_explicit_fix vcs9 "ref2" "deadbeefdeadbeefdeadbeefdeadbeefdeadbeef" = false ∧
    audit_warned_references vcs9 "deadbeefdeadbeefdeadbeefdeadbeefdeadbeef" "main" =
      ["ref2"] := by
  refine ⟨?_, ?_, by rfl, by rfl, by rfl⟩
  · unfold audit_warned_references
    rw [List.mem_filter]
    constructor
    · rintro ⟨h1, h2⟩
      exact ⟨h1, by simpa using h2⟩
    · rintro ⟨h1, h2⟩
      exact ⟨h1, by simpa using h2⟩
  · cases hb : vcs.bodyOf r with
    | none => simp [is_explicit_fix, hb]
    | some body =>
      simp only [is_explicit_fix, hb]
      rw [List.any_eq_true]
      constructor
      · rintro ⟨l, hl, hf⟩
        refine ⟨body, rfl, l, hl, ?_⟩
        by_cases hsw : strStartsWith (trimS l) "Fixes: " = true
        · simp only [hsw, if_true] at hf
          exact ⟨hsw, by simpa using hf⟩
        · simp [hsw] at hf
      · rintro ⟨body2, hb2, l, hl, hsw, hor⟩
        injection hb2 with hbe
        subst hbe
        exact ⟨l, hl, by simp [hsw, hor]⟩

/-! ## C10: fix command output header -/

/-- C10: when `base..HEAD` contains no commits the fix command succeeds with
no output at all (not even the modeline); when the range is non-empty the
emitted commit-list output always begins with the
`# vim: ft=gitbackportcommits` modeline, even with zero fixes — and a file
consisting of only that modeline is rejected by the parser as empty. -/
theorem fix_command_header (vcs : Vcs) (base ref_branch : String) :
    (∀ commits, get_commits_in_range vcs base "HEAD" = .ok commits →
      (commits = [] → fix_command vcs base ref_branch = .ok []) ∧
      (commits ≠ [] → ∃ rest, fix_command vcs base ref_branch =
        .ok ("# vim: ft=gitbackportcommits" :: rest))) ∧
    read_from_file "# vim: ft=gitbackportcommits\n" =
      .error "No commits found in file" := by
  constructor
  · intro commits hget
    constructor
    · intro he
      subst he
      simp [fix_command, hget]
    · intro hne
      exact ⟨_, fix_command_eq_of_nonempty vcs base ref_branch commits hget hne⟩
  · rfl

theorem fix_command_header_witness :
    get_commits_in_range vcs10 "b" "HEAD" = .ok [CommitInfo.from_hash "c1"] ∧
    ([CommitInfo.from_hash "c1"] : List CommitInfo) ≠ [] ∧
    (∃ rest, fix_command vcs10 "b" "r" =
      .ok ("# vim: ft=gitbackportcommits" :: rest)) :=
  ⟨by rfl, by decide,
   ((fix_command_header vcs10 "b" "r").1 [CommitInfo.from_hash "c1"] (by rfl)).2
     (by decide)⟩

/-! ## Lemmas: reader error behaviour (C5) -/

theorem processLines_cons (l : String) (ls comments : List String)
    (entries : List CommitEntry) :
    processLines (l :: ls) comments entries =
      (if trimS l = "" then
         if comments = [] && ls = [] then processLines ls comments entries
         else processLines ls (comments ++ [l]) entries
       else if strStartsWith (trimS l) "#" then
         processLines ls (comments ++ [l]) entries
       else match CommitInfo.parse_line (trimS l) with
         | .ok c =>
           processLines ls [] (entries ++ [CommitEntry.with_comments c comments])
         | .error _ => processLines ls (comments ++ [l]) entries) := rfl

/-- C5: the commit-list reader never rejects a file because of a malformed
line: a non-blank, non-comment line is either consumed as a commit entry or
reclassified as a comment attached to the next commit (the only two
behaviours of the classification step); the parse fails — with the
`No commits found in file` error, the `EmptyInput` equivalent — exactly when
the file yields zero commit entries. -/
theorem read_rejects_only_empty (content : String) :
    (∀ msg, read_from_file content = .error msg →
      msg = "No commits found in file" ∧ entriesOf content = []) ∧
    (∀ ml es, read_from_file content = .ok (ml, es) → es ≠ []) ∧
    (∀ (l : String) (ls comments : List String) (entries : List CommitEntry),
      trimS l ≠ "" → strStartsWith (trimS l) "#" = false →
      (∃ c, CommitInfo.parse_line (trimS l) = .ok c ∧
        processLines (l :: ls) comments entries =
          processLines ls [] (entries ++ [CommitEntry.with_comments c comments])) ∨
      processLines (l :: ls) comments entries =
        processLines ls (comments ++ [l]) entries) := by
  refine ⟨?_, ?_, ?_⟩
  · intro msg hmsg
    unfold read_from_file at hmsg
    by_cases he : processLines (extractModelines (rustLines content)).2 [] [] = []
    · rw [if_pos he] at hmsg
      injection hmsg with h1
      exact ⟨h1.symm, he⟩
    · rw [if_neg he] at hmsg
      cases hmsg
  · intro ml es hok
    unfold read_from_file at hok
    by_cases he : processLines (extractModelines (rustLines content)).2 [] [] = []
    · rw [if_pos he] at hok
      cases hok
    · rw [if_neg he] at hok
      injection hok with h1
      have h2 : es = processLines (extractModelines (rustLines content)).2 [] [] :=
        (congrArg Prod.snd h1).symm
      rw [h2]
      exact he
  · intro l ls comments entries hne hsw
    rw [processLines_cons, if_neg hne, if_neg (by simp [hsw])]
    cases hp : CommitInfo.parse_line (trimS l) with
    | ok c => exact Or.inl ⟨c, rfl, rfl⟩
    | error e => exact Or.inr rfl

theorem read_rejects_only_empty_witness :
    trimS "y7e21" ≠ "" ∧ strStartsWith (trimS "y7e21") "#" = false ∧
    ((∃ c, CommitInfo.parse_line (trimS "y7e21") = .ok c ∧
        processLines ["y7e21"] [] [] =
          processLines [] [] ([] ++ [CommitEntry.with_comments c []])) ∨
      processLines ["y7e21"] [] [] = processLines [] ([] ++ ["y7e21"]) []) :=
  ⟨by decide, by decide,
   (read_rejects_only_empty "x9\n").2.2 "y7e21" [] [] [] (by decide) (by decide)⟩

/-! ## Char-level lemmas for the serialisation round trip (C4) -/

theorem dropWhile_head_not (p : Char → Bool) :
    ∀ (l : List Char) (c : Char), (l.dropWhile p).head? = some c → p c = false := by
  intro l
  induction l with
  | nil => intro c hc; simp at hc
  | cons x xs ih =>
    intro c hc
    by_cases hp : p x = true
    · rw [List.dropWhile_cons, if_pos hp] at hc
      exact ih c hc
    · rw [List.dropWhile_cons, if_neg hp] at hc
      injection hc with hc2
      rw [← hc2]
      cases hv : p x
      · rfl
      · exact absurd hv hp

theorem dropWhile_eq_self_of_head (p : Char → Bool) (l : List Char)
    (h : ∀ c, l.head? = some c → p c = false) : l.dropWhile p = l := by
  cases l with
  | nil => rfl
  | cons x xs =>
    rw [List.dropWhile_cons, if_neg (by simp [h x rfl])]


theorem getLast?_mem_self {α : Type} (l : List α) (a : α) (h : l.getLast? = some a) :
    a ∈ l := by
  obtain ⟨hne, heq⟩ :=
    List.mem_getLast?_eq_getLast (show a ∈ l.getLast? from Option.mem_def.mpr h)
  rw [heq]
  exact List.getLast_mem hne

theorem getLast?_cons_of_ne {α : Type} (x : α) (xs : List α) (h : xs ≠ []) :
    (x :: xs).getLast? = xs.getLast? := by
  cases xs with
  | nil => exact absurd rfl h
  | cons y ys => simp [List.getLast?_cons_cons]

theorem head?_append_left {α : Type} (l1 l2 : List α) (h : l1 ≠ []) :
    (l1 ++ l2).head? = l1.head? := by
  cases l1 with
  | nil => exact absurd rfl h
  | cons x xs => rfl

theorem dropWhile_getLast_of_ne_nil (p : Char → Bool) :
    ∀ l : List Char, l.dropWhile p ≠ [] →
      (l.dropWhile p).getLast? = l.getLast? := by
  intro l
  induction l with
  | nil => intro h; simp at h
  | cons x xs ih =>
    intro h
    by_cases hp : p x = true
    · rw [List.dropWhile_cons, if_pos hp] at h ⊢
      have hxs : xs ≠ [] := by
        intro he
        rw [he] at h
        simp at h
      rw [ih h, getLast?_cons_of_ne x xs hxs]
    · rw [List.dropWhile_cons, if_neg hp]

theorem trimChars_head (l : List Char) (c : Char)
    (h : (trimChars l).head? = some c) : c.isWhitespace = false := by
  unfold trimChars at h
  rw [List.head?_reverse] at h
  have hne : ((l.dropWhile Char.isWhitespace).reverse.dropWhile Char.isWhitespace) ≠ [] := by
    intro he
    rw [he] at h
    simp at h
  rw [dropWhile_getLast_of_ne_nil _ _ hne, List.getLast?_reverse] at h
  exact dropWhile_head_not _ _ _ h

theorem trimChars_getLast (l : List Char) (c : Char)
    (h : (trimChars l).getLast? = some c) : c.isWhitespace = false := by
  unfold trimChars at h
  rw [List.getLast?_reverse] at h
  exact dropWhile_head_not _ _ _ h

theorem trimChars_of_clean (l : List Char)
    (hh : ∀ c, l.head? = some c → c.isWhitespace = false)
    (hl : ∀ c, l.getLast? = some c → c.isWhitespace = false) :
    trimChars l = l := by
  unfold trimChars
  rw [dropWhile_eq_self_of_head _ _ hh]
  rw [dropWhile_eq_self_of_head _ _ (fun c hc => hl c (by rwa [List.head?_reverse] at hc))]
  exact List.reverse_reverse l

theorem trimChars_idem (l : List Char) : trimChars (trimChars l) = trimChars l :=
  trimChars_of_clean _ (trimChars_head l) (trimChars_getLast l)

theorem trimS_idem (s : String) : trimS (trimS s) = trimS s :=
  congrArg String.mk (trimChars_idem s.data)

theorem joinSep_cons (sep x : List Char) (ys : List (List Char)) (h : ys ≠ []) :
    joinSep sep (x :: ys) = x ++ sep ++ joinSep sep ys := by
  cases ys with
  | nil => exact absurd rfl h
  | cons y ys2 => rfl

theorem wsSplit_run : ∀ (t cs acc : List Char),
    (∀ c ∈ t, c.isWhitespace = false) →
    wsSplitChars (t ++ cs) acc = wsSplitChars cs (acc ++ t) := by
  intro t
  induction t with
  | nil => intro cs acc _; simp
  | cons c ts ih =>
    intro cs acc ht
    have hc : c.isWhitespace = false := ht c (List.mem_cons_self c ts)
    show wsSplitChars (c :: (ts ++ cs)) acc = _
    rw [wsSplitChars, if_neg (by simp [hc])]
    rw [ih cs (acc ++ [c]) (fun x hx => ht x (List.mem_cons_of_mem c hx))]
    rw [List.append_assoc]
    rfl

theorem wsSplit_ne_nil : ∀ (l acc : List Char), acc ≠ [] →
    wsSplitChars l acc ≠ [] := by
  intro l
  induction l with
  | nil => intro acc h; simp [wsSplitChars, h]
  | cons c cs ih =>
    intro acc h
    rw [wsSplitChars]
    by_cases hw : c.isWhitespace = true
    · rw [if_pos hw, if_neg h]
      simp
    · rw [if_neg hw]
      exact ih (acc ++ [c]) (by simp)

theorem wsSplit_join : ∀ toks : List (List Char),
    (∀ t ∈ toks, t ≠ [] ∧ ∀ c ∈ t, c.isWhitespace = false) →
    wsSplitChars (joinSep [' '] toks) [] = toks := by
  intro toks
  induction toks with
  | nil => intro _; rfl
  | cons t ts ih =>
    intro h
    have ht := h t (List.mem_cons_self t ts)
    cases ts with
    | nil =>
      show wsSplitChars t [] = [t]
      have h2 := wsSplit_run t [] [] ht.2
      rw [List.append_nil] at h2
      rw [h2, List.nil_append]
      simp [wsSplitChars, ht.1]
    | cons t2 ts2 =>
      rw [joinSep_cons _ _ _ (by simp)]
      rw [List.append_assoc, List.singleton_append]
      rw [wsSplit_run t _ [] ht.2, List.nil_append]
      rw [wsSplitChars, if_pos (by decide), if_neg ht.1]
      rw [ih (fun x hx => h x (List.mem_cons_of_mem t hx))]

theorem wsSplit_tokens_wf : ∀ (l acc : List Char),
    (∀ c ∈ acc, c.isWhitespace = false) →
    ∀ t ∈ wsSplitChars l acc, t ≠ [] ∧ ∀ c ∈ t, c.isWhitespace = false := by
  intro l
  induction l with
  | nil =>
    intro acc hacc t ht
    rw [wsSplitChars] at ht
    by_cases h : acc = []
    · rw [if_pos h] at ht
      simp at ht
    · rw [if_neg h] at ht
      simp at ht
      rw [ht]
      exact ⟨h, hacc⟩
  | cons c cs ih =>
    intro acc hacc t ht
    rw [wsSplitChars] at ht
    by_cases hw : c.isWhitespace = true
    · rw [if_pos hw] at ht
      by_cases h : acc = []
      · rw [if_pos h] at ht
        exact ih [] (by simp) t ht
      · rw [if_neg h] at ht
        rcases List.mem_cons.mp ht with h2 | h2
        · rw [h2]
          exact ⟨h, hacc⟩
        · exact ih [] (by simp) t h2
    · rw [if_neg hw] at ht
      refine ih (acc ++ [c]) ?_ t ht
      intro x hx
      rcases List.mem_append.mp hx with h2 | h2
      · exact hacc x h2
      · simp at h2
        rw [h2]
        cases hv : c.isWhitespace
        · rfl
        · exact absurd hv hw

theorem wsSplit_first_head : ∀ (l acc : List Char) (p : List Char)
    (ps : List (List Char)), acc ≠ [] → wsSplitChars l acc = p :: ps →
    p.head? = acc.head? := by
  intro l
  induction l with
  | nil =>
    intro acc p ps hacc h
    rw [wsSplitChars, if_neg hacc] at h
    injection h with h1
    rw [h1]
  | cons c cs ih =>
    intro acc p ps hacc h
    rw [wsSplitChars] at h
    by_cases hw : c.isWhitespace = true
    · rw [if_pos hw, if_neg hacc] at h
      injection h with h1
      rw [h1]
    · rw [if_neg hw] at h
      rw [ih (acc ++ [c]) p ps (by simp) h]
      exact head?_append_left acc [c] hacc

theorem stripCr_self (l : List Char) (h : l.getLast? ≠ some '\r') :
    stripCr l = l := by
  unfold stripCr
  rw [if_neg h]

theorem linesChars_run : ∀ (p cs acc : List Char),
    (∀ c ∈ p, c ≠ '\n') →
    linesChars (p ++ cs) acc = linesChars cs (acc ++ p) := by
  intro p
  induction p with
  | nil => intro cs acc _; simp
  | cons c ps ih =>
    intro cs acc hp
    have hc : c ≠ '\n' := hp c (List.mem_cons_self c ps)
    show linesChars (c :: (ps ++ cs)) acc = _
    rw [linesChars, if_neg hc]
    rw [ih cs (acc ++ [c]) (fun x hx => hp x (List.mem_cons_of_mem c hx))]
    rw [List.append_assoc]
    rfl

theorem linesChars_join : ∀ ls : List (List Char), ls ≠ [] →
    (∀ l ∈ ls, (∀ c ∈ l, c ≠ '\n') ∧ l.getLast? ≠ some '\r') →
    linesChars (joinSep ['\n'] ls ++ ['\n']) [] = ls := by
  intro ls
  induction ls with
  | nil => intro h _; exact absurd rfl h
  | cons l ls2 ih =>
    intro _ h
    have hl := h l (List.mem_cons_self l ls2)
    cases ls2 with
    | nil =>
      show linesChars (l ++ ['\n']) [] = [l]
      rw [linesChars_run l ['\n'] [] hl.1, List.nil_append]
      rw [linesChars, if_pos rfl, stripCr_self l hl.2]
      rfl
    | cons l2 ls3 =>
      rw [joinSep_cons _ _ _ (by simp)]
      rw [List.append_assoc, List.append_assoc, List.singleton_append]
      rw [linesChars_run l _ [] hl.1, List.nil_append]
      rw [linesChars, if_pos rfl, stripCr_self l hl.2]
      rw [ih (by simp) (fun x hx => h x (List.mem_cons_of_mem l hx))]

theorem linesChars_pieces_chars : ∀ (l acc p : List Char),
    p ∈ linesChars l acc → ∀ c ∈ p, c ∈ acc ∨ c ∈ l := by
  intro l
  induction l with
  | nil =>
    intro acc p hp c hc
    rw [linesChars] at hp
    by_cases h : acc = []
    · rw [if_pos h] at hp
      simp at hp
    · rw [if_neg h] at hp
      simp at hp
      rw [hp] at hc
      exact Or.inl hc
  | cons x xs ih =>
    intro acc p hp c hc
    rw [linesChars] at hp
    by_cases hx : x = '\n'
    · rw [if_pos hx] at hp
      rcases List.mem_cons.mp hp with h2 | h2
      · have hsub : c ∈ acc := by
          rw [h2] at hc
          unfold stripCr at hc
          by_cases hcr : acc.getLast? = some '\r'
          · rw [if_pos hcr] at hc
            exact List.dropLast_subset acc hc
          · rw [if_neg hcr] at hc
            exact hc
        exact Or.inl hsub
      · rcases ih [] p h2 c hc with h3 | h3
        · simp at h3
        · exact Or.inr (List.mem_cons_of_mem x h3)
    · rw [if_neg hx] at hp
      rcases ih (acc ++ [x]) p hp c hc with h3 | h3
      · rcases List.mem_append.mp h3 with h4 | h4
        · exact Or.inl h4
        · simp at h4
          exact Or.inr (by rw [h4]; exact List.mem_cons_self x xs)
      · exact Or.inr (List.mem_cons_of_mem x h3)

theorem rustLines_chars (s : String) (l : String) (hl : l ∈ rustLines s) :
    ∀ c ∈ l.data, c ∈ s.data := by
  intro c hc
  unfold rustLines at hl
  obtain ⟨p, hp, hpl⟩ := List.mem_map.mp hl
  have : c ∈ p := by
    rw [← hpl] at hc
    exact hc
  rcases linesChars_pieces_chars s.data [] p hp c this with h | h
  · simp at h
  · exact h

theorem linesChars_no_nl : ∀ (l acc : List Char),
    (∀ c ∈ acc, c ≠ '\n') →
    ∀ p ∈ linesChars l acc, ∀ c ∈ p, c ≠ '\n' := by
  intro l
  induction l with
  | nil =>
    intro acc hacc p hp c hc
    rw [linesChars] at hp
    by_cases h : acc = []
    · rw [if_pos h] at hp
      simp at hp
    · rw [if_neg h] at hp
      simp at hp
      rw [hp] at hc
      exact hacc c hc
  | cons x xs ih =>
    intro acc hacc p hp c hc
    rw [linesChars] at hp
    by_cases hx : x = '\n'
    · rw [if_pos hx] at hp
      rcases List.mem_cons.mp hp with h2 | h2
      · rw [h2] at hc
        unfold stripCr at hc
        by_cases hcr : acc.getLast? = some '\r'
        · rw [if_pos hcr] at hc
          exact hacc c (List.dropLast_subset acc hc)
        · rw [if_neg hcr] at hc
          exact hacc c hc
      · exact ih [] (by simp) p h2 c hc
    · rw [if_neg hx] at hp
      refine ih (acc ++ [x]) ?_ p hp c hc
      intro y hy
      rcases List.mem_append.mp hy with h3 | h3
      · exact hacc y h3
      · simp at h3
        rw [h3]
        exact hx

theorem rustLines_no_nl (s : String) (l : String) (hl : l ∈ rustLines s) :
    ∀ c ∈ l.data, c ≠ '\n' := by
  intro c hc
  unfold rustLines at hl
  obtain ⟨p, hp, hpl⟩ := List.mem_map.mp hl
  refine linesChars_no_nl s.data [] (by simp) p hp c ?_
  rw [← hpl] at hc
  exact hc

theorem joinSep_space_chars : ∀ toks : List (List Char),
    (∀ t ∈ toks, ∀ ch ∈ t, ch.isWhitespace = false) →
    ∀ ch ∈ joinSep [' '] toks, ch = ' ' ∨ ch.isWhitespace = false := by
  intro toks
  induction toks with
  | nil => intro _ ch hch; simp [joinSep] at hch
  | cons t ts ih =>
    intro h ch hch
    cases ts with
    | nil => exact Or.inr (h t (List.mem_cons_self t []) ch hch)
    | cons t2 ts2 =>
      rw [joinSep_cons _ _ _ (by simp)] at hch
      rcases List.mem_append.mp hch with h2 | h2
      · rcases List.mem_append.mp h2 with h3 | h3
        · exact Or.inr (h t (List.mem_cons_self t (t2 :: ts2)) ch h3)
        · simp at h3
          exact Or.inl h3
      · exact ih (fun x hx => h x (List.mem_cons_of_mem t hx)) ch h2

theorem joinSep_head (sep x : List Char) (rest : List (List Char)) (h : x ≠ []) :
    (joinSep sep (x :: rest)).head? = x.head? := by
  cases rest with
  | nil => rfl
  | cons y ys =>
    rw [joinSep_cons _ _ _ (by simp), List.append_assoc]
    exact head?_append_left x _ h

theorem joinSep_cons_ne_nil (sep x : List Char) (rest : List (List Char))
    (h : x ≠ []) : joinSep sep (x :: rest) ≠ [] := by
  intro he
  have h1 := joinSep_head sep x rest h
  rw [he] at h1
  cases hx : x.head? with
  | none =>
    rw [List.head?_eq_none_iff] at hx
    exact h hx
  | some c =>
    rw [hx] at h1
    cases h1

theorem joinSep_getLast : ∀ (xs : List (List Char)) (x : List Char), x ≠ [] →
    (joinSep [' '] (xs ++ [x])).getLast? = x.getLast? ∧
    joinSep [' '] (xs ++ [x]) ≠ [] := by
  intro xs
  induction xs with
  | nil =>
    intro x hx
    exact ⟨rfl, hx⟩
  | cons x0 xs2 ih =>
    intro x hx
    obtain ⟨ih1, ih2⟩ := ih x hx
    rw [List.cons_append, joinSep_cons _ _ _ (by simp)]
    constructor
    · rw [List.getLast?_append_of_ne_nil _ ih2]
      exact ih1
    · intro he
      rcases List.append_eq_nil.mp he with ⟨_, h2⟩
      exact ih2 h2

theorem joinSep_flatten (sep : List Char) : ∀ (xs ys : List (List Char)), ys ≠ [] →
    joinSep sep (xs ++ [joinSep sep ys]) = joinSep sep (xs ++ ys) := by
  intro xs
  induction xs with
  | nil =>
    intro ys hys
    show joinSep sep [joinSep sep ys] = joinSep sep ys
    rfl
  | cons x0 xs2 ih =>
    intro ys hys
    rw [List.cons_append, List.cons_append]
    rw [joinSep_cons _ _ _ (by simp)]
    rw [joinSep_cons _ _ _ (by
      intro he
      rcases List.append_eq_nil.mp he with ⟨_, h2⟩
      exact hys h2)]
    rw [ih ys hys]

theorem tokensOf_wf (s : String) : ∀ t ∈ tokensOf s,
    t ≠ "" ∧ ∀ c ∈ t.data, c.isWhitespace = false := by
  intro t ht
  unfold tokensOf at ht
  obtain ⟨p, hp, hpt⟩ := List.mem_map.mp ht
  obtain ⟨hp1, hp2⟩ := wsSplit_tokens_wf s.data [] (by simp) p hp
  constructor
  · intro he
    apply hp1
    have : (String.mk p).data = ("" : String).data := by rw [hpt, he]
    exact this
  · intro c hc
    apply hp2
    rw [← hpt] at hc
    exact hc

theorem lastOr_mem (l : List String) (x : String) (h : lastOr l none = some x) :
    x ∈ l := by
  unfold lastOr at h
  cases hgl : l.getLast? with
  | none => rw [hgl] at h; cases h
  | some y =>
    rw [hgl] at h
    injection h with h1
    rw [← h1]
    exact getLast?_mem_self l y hgl

theorem startsWith_hash_head (s : String) (h : strStartsWith s "#" = false) :
    s.data.head? ≠ some '#' := by
  unfold strStartsWith at h
  cases hd : s.data with
  | nil => simp
  | cons c cs =>
    rw [hd] at h
    intro hc
    injection hc with hc2
    subst hc2
    have h2 : (['#'] : List Char).isPrefixOf ('#' :: cs) = false := h
    simp [List.isPrefixOf] at h2

theorem startsWith_false_of_head (s p : String) (hs : s.data.head? ≠ some '#')
    (hp : p.data.head? = some '#') : strStartsWith s p = false := by
  unfold strStartsWith
  cases hpd : p.data with
  | nil => rw [hpd] at hp; cases hp
  | cons pc pcs =>
    rw [hpd] at hp
    injection hp with hp2
    cases hsd : s.data with
    | nil => rfl
    | cons sc scs =>
      have hne : pc ≠ sc := by
        intro he
        apply hs
        rw [hsd, ← he, hp2]
        rfl
      simp [List.isPrefixOf, hne]

theorem tokensOf_head (s : String) (c0 : Char) (h0 : s.data.head? = some c0)
    (hnw : c0.isWhitespace = false) :
    ∀ (tok : String) (rest : List String), tokensOf s = tok :: rest →
    tok.data.head? = some c0 := by
  intro tok rest htok
  unfold tokensOf at htok
  cases hd : s.data with
  | nil => rw [hd] at h0; cases h0
  | cons c tl =>
    rw [hd] at h0
    injection h0 with h02
    rw [hd] at htok
    rw [wsSplitChars, if_neg (by rw [h02]; simp [hnw])] at htok
    cases hw : wsSplitChars tl ([] ++ [c]) with
    | nil => rw [hw] at htok; cases htok
    | cons p ps =>
      rw [hw] at htok
      have hph := wsSplit_first_head tl ([] ++ [c]) p ps (by simp) hw
      injection htok with ht1
      rw [← ht1]
      show p.head? = some c0
      rw [hph]
      simp [h02]

theorem data_ne_nil_of_ne_empty (s : String) (h : s ≠ "") : s.data ≠ [] := by
  intro he
  apply h
  have : s = String.mk s.data := rfl
  rw [this, he]

theorem parse_line_wf (t : String) (c : CommitInfo)
    (htr : trimS t = t) (hne : t ≠ "") (hh : strStartsWith t "#" = false)
    (hok : CommitInfo.parse_line t = .ok c) : commitWF c := by
  cases hd : t.data with
  | nil => exact absurd hd (data_ne_nil_of_ne_empty t hne)
  | cons c0 tl =>
    have hhead : t.data.head? = some c0 := by rw [hd]; rfl
    have hc0w : c0.isWhitespace = false := by
      refine trimChars_head t.data c0 ?_
      have : trimChars t.data = t.data := congrArg String.data htr
      rw [this]
      exact hhead
    have hc0h : c0 ≠ '#' := by
      intro he
      apply startsWith_hash_head t hh
      rw [hhead, he]
    cases htok : tokensOf t with
    | nil =>
      exfalso
      unfold CommitInfo.parse_line at hok
      rw [htr] at hok
      rw [if_neg hne, htok] at hok
      simp at hok
    | cons h rest =>
      have heq := parse_line_eq_of_tokens t h rest (by rw [htr]; exact hne)
        (by rw [htr]; exact htok)
      rw [heq] at hok
      injection hok with hok2
      rw [← hok2]
      refine ⟨?_, ?_, ?_, ?_⟩
      · exact tokensOf_wf t h (htok ▸ List.mem_cons_self h rest)
      · show h.data.head? ≠ some '#'
        rw [tokensOf_head t c0 hhead hc0w h rest htok]
        intro he
        injection he with he2
        exact hc0h he2
      · intro x hx
        have hx2 : lastOr (rest.filter isCidTok) none = some x := hx
        have hmem := lastOr_mem _ x hx2
        have hmf := List.mem_filter.mp hmem
        refine ⟨hmf.2, ?_⟩
        exact tokensOf_wf t x (htok ▸ List.mem_cons_of_mem h hmf.1)
      · intro tt htt
        by_cases hemp : rest.filter (fun tk => !(isCidTok tk)) = []
        · rw [if_pos hemp] at htt
          cases htt
        · rw [if_neg hemp] at htt
          injection htt with htt2
          refine ⟨rest.filter (fun tk => !(isCidTok tk)), hemp, ?_, htt2.symm⟩
          intro tk htk
          have hmf := List.mem_filter.mp htk
          refine ⟨tokensOf_wf t tk (htok ▸ List.mem_cons_of_mem h hmf.1), ?_⟩
          have := hmf.2
          cases hv : isCidTok tk
          · rfl
          · rw [hv] at this
            cases this

theorem ne_empty_of_data_ne_nil (s : String) (h : s.data ≠ []) : s ≠ "" := by
  intro he
  rw [he] at h
  exact h rfl

theorem map_mk_data (l : List String) :
    List.map String.mk (List.map String.data l) = l := by
  rw [List.map_map]
  have hid : (String.mk ∘ String.data) = id := funext fun t => rfl
  rw [hid, List.map_id]

theorem joinTokens_parse (hash : String) (cidL toks : List String)
    (hhash : wsFreeTok hash) (hhh : hash.data.head? ≠ some '#')
    (hcidL : ∀ x ∈ cidL, isCidTok x = true ∧ wsFreeTok x)
    (htoks : ∀ tk ∈ toks, wsFreeTok tk ∧ isCidTok tk = false) :
    tokensOf (joinSpaceS ([hash] ++ cidL ++ toks)) = [hash] ++ cidL ++ toks ∧
    trimS (joinSpaceS ([hash] ++ cidL ++ toks)) = joinSpaceS ([hash] ++ cidL ++ toks) ∧
    joinSpaceS ([hash] ++ cidL ++ toks) ≠ "" ∧
    strStartsWith (joinSpaceS ([hash] ++ cidL ++ toks)) "#" = false ∧
    (∀ ch ∈ (joinSpaceS ([hash] ++ cidL ++ toks)).data,
      ch = ' ' ∨ ch.isWhitespace = false) ∧
    CommitInfo.parse_line (joinSpaceS ([hash] ++ cidL ++ toks)) =
      .ok { hash := hash, change_id := lastOr cidL none,
            title := if toks = [] then none
                     else some (joinSpaceS toks) } := by
  have hall : ∀ t ∈ ([hash] ++ cidL ++ toks), t ≠ "" ∧
      ∀ c ∈ t.data, c.isWhitespace = false := by
    intro t ht
    rcases List.mem_append.mp ht with h1 | h1
    · rcases List.mem_append.mp h1 with h2 | h2
      · simp at h2
        rw [h2]
        exact hhash
      · exact (hcidL t h2).2
    · exact (htoks t h1).1
  have halld : ∀ p ∈ ([hash] ++ cidL ++ toks).map String.data,
      p ≠ [] ∧ ∀ c ∈ p, c.isWhitespace = false := by
    intro p hp
    obtain ⟨t, ht, htp⟩ := List.mem_map.mp hp
    obtain ⟨ht1, ht2⟩ := hall t ht
    rw [← htp]
    exact ⟨fun he => ht1 (by
      apply congrArg String.mk at he
      exact he), ht2⟩
  have hdata : (joinSpaceS ([hash] ++ cidL ++ toks)).data =
      joinSep [' '] (([hash] ++ cidL ++ toks).map String.data) := rfl
  have htoksOf : tokensOf (joinSpaceS ([hash] ++ cidL ++ toks)) =
      [hash] ++ cidL ++ toks := by
    unfold tokensOf
    rw [hdata, wsSplit_join _ halld, map_mk_data]
  have hdne : hash.data ≠ [] := data_ne_nil_of_ne_empty hash hhash.1
  have hshape : ([hash] ++ cidL ++ toks).map String.data =
      hash.data :: ((cidL ++ toks).map String.data) := by
    simp
  have hhead : (joinSpaceS ([hash] ++ cidL ++ toks)).data.head? = hash.data.head? := by
    rw [hdata, hshape]
    exact joinSep_head [' '] hash.data _ hdne
  have hlast : ∀ ch, (joinSpaceS ([hash] ++ cidL ++ toks)).data.getLast? = some ch →
      ch.isWhitespace = false := by
    intro ch hch
    rcases List.eq_nil_or_concat ([hash] ++ cidL ++ toks) with hsplit | ⟨ys, y, hsplit⟩
    · simp at hsplit
    · rw [List.concat_eq_append] at hsplit
      have hy : y ∈ ([hash] ++ cidL ++ toks) := by
        rw [hsplit]
        simp
      obtain ⟨hy1, hy2⟩ := hall y hy
      have hmap : ([hash] ++ cidL ++ toks).map String.data =
          ys.map String.data ++ [y.data] := by
        rw [hsplit, List.map_append]
        rfl
      rw [hdata, hmap] at hch
      rw [(joinSep_getLast (ys.map String.data) y.data
        (data_ne_nil_of_ne_empty y hy1)).1] at hch
      exact hy2 ch (getLast?_mem_self _ _ hch)
  have hhnw : ∀ ch, (joinSpaceS ([hash] ++ cidL ++ toks)).data.head? = some ch →
      ch.isWhitespace = false := by
    intro ch hch
    rw [hhead] at hch
    exact hhash.2 ch (List.mem_of_mem_head? hch)
  have htrim : trimS (joinSpaceS ([hash] ++ cidL ++ toks)) =
      joinSpaceS ([hash] ++ cidL ++ toks) :=
    congrArg String.mk (trimChars_of_clean _ hhnw hlast)
  have hne2 : joinSpaceS ([hash] ++ cidL ++ toks) ≠ "" := by
    apply ne_empty_of_data_ne_nil
    rw [hdata, hshape]
    exact joinSep_cons_ne_nil [' '] hash.data _ hdne
  have hnh : strStartsWith (joinSpaceS ([hash] ++ cidL ++ toks)) "#" = false := by
    apply startsWith_false_of_head
    · rw [hhead]
      intro hcon
      apply hhh
      exact hcon
    · rfl
  have hchars : ∀ ch ∈ (joinSpaceS ([hash] ++ cidL ++ toks)).data,
      ch = ' ' ∨ ch.isWhitespace = false := by
    intro ch hch
    rw [hdata] at hch
    exact joinSep_space_chars _ (fun p hp c hc => (halld p hp).2 c hc) ch hch
  refine ⟨htoksOf, htrim, hne2, hnh, hchars, ?_⟩
  have hp := parse_line_eq_of_tokens (joinSpaceS ([hash] ++ cidL ++ toks))
    hash (cidL ++ toks)
    (by rw [htrim]; exact hne2)
    (by rw [htrim]; rw [htoksOf]; rfl)
  rw [hp]
  have hfilpos : (cidL ++ toks).filter isCidTok = cidL := by
    rw [List.filter_append]
    rw [List.filter_eq_self.mpr (fun x hx => (hcidL x hx).1)]
    rw [List.filter_eq_nil_iff.mpr (fun tk htk => by simp [(htoks tk htk).2])]
    rw [List.append_nil]
  have hfilneg : (cidL ++ toks).filter (fun tk => !(isCidTok tk)) = toks := by
    rw [List.filter_append]
    rw [List.filter_eq_nil_iff.mpr (fun x hx => by simp [(hcidL x hx).1])]
    rw [List.filter_eq_self.mpr (fun tk htk => by simp [(htoks tk htk).2])]
    rw [List.nil_append]
  rw [hfilpos, hfilneg]

theorem joinSpaceS_flatten (pre toks : List String) (htne : toks ≠ []) :
    joinSpaceS (pre ++ [joinSpaceS toks]) = joinSpaceS (pre ++ toks) := by
  show String.mk (joinSep [' '] ((pre ++ [joinSpaceS toks]).map String.data)) =
    String.mk (joinSep [' '] ((pre ++ toks).map String.data))
  apply congrArg
  have h1 : (pre ++ [joinSpaceS toks]).map String.data =
      pre.map String.data ++ [joinSep [' '] (toks.map String.data)] := by
    rw [List.map_append]
    rfl
  rw [h1]
  rw [joinSep_flatten [' '] (pre.map String.data) (toks.map String.data)
    (by intro he; exact htne (by simpa using he))]
  rw [← List.map_append]

theorem to_line_ok (c : CommitInfo) (h : commitWF c) :
    trimS (CommitInfo.to_line c) = CommitInfo.to_line c ∧
    CommitInfo.to_line c ≠ "" ∧
    strStartsWith (CommitInfo.to_line c) "#" = false ∧
    CommitInfo.parse_line (CommitInfo.to_line c) = .ok c ∧
    (∀ ch ∈ (CommitInfo.to_line c).data, ch = ' ' ∨ ch.isWhitespace = false) := by
  obtain ⟨hhash, hhh, hcid, htitle⟩ := h
  cases c with
  | mk chash ccid ctitle =>
    cases ccid with
    | none =>
      cases ctitle with
      | none =>
        have hj := joinTokens_parse chash [] [] hhash hhh (by simp) (by simp)
        exact ⟨hj.2.1, hj.2.2.1, hj.2.2.2.1, hj.2.2.2.2.2, hj.2.2.2.2.1⟩
      | some t =>
        obtain ⟨toks, htne, htoksp, hteq⟩ := htitle t rfl
        have hj := joinTokens_parse chash [] toks hhash hhh (by simp)
          (fun tk htk => htoksp tk htk)
        have heq : CommitInfo.to_line ⟨chash, none, some t⟩ =
            joinSpaceS ([chash] ++ [] ++ toks) := by
          show joinSpaceS ([chash] ++ [] ++ [t]) = _
          rw [hteq]
          exact joinSpaceS_flatten ([chash] ++ []) toks htne
        rw [heq]
        refine ⟨hj.2.1, hj.2.2.1, hj.2.2.2.1, ?_, hj.2.2.2.2.1⟩
        rw [hj.2.2.2.2.2, if_neg htne, ← hteq]
        rfl
    | some cx =>
      have hcx := hcid cx rfl
      have hcidL : ∀ x ∈ [cx], isCidTok x = true ∧ wsFreeTok x := by
        intro x hx
        simp at hx
        rw [hx]
        exact hcx
      cases ctitle with
      | none =>
        have hj := joinTokens_parse chash [cx] [] hhash hhh hcidL (by simp)
        refine ⟨hj.2.1, hj.2.2.1, hj.2.2.2.1, ?_, hj.2.2.2.2.1⟩
        have h6 := hj.2.2.2.2.2
        simp only [lastOr, List.getLast?_singleton] at h6
        exact h6
      | some t =>
        obtain ⟨toks, htne, htoksp, hteq⟩ := htitle t rfl
        have hj := joinTokens_parse chash [cx] toks hhash hhh hcidL
          (fun tk htk => htoksp tk htk)
        have heq : CommitInfo.to_line ⟨chash, some cx, some t⟩ =
            joinSpaceS ([chash] ++ [cx] ++ toks) := by
          show joinSpaceS ([chash] ++ [cx] ++ [t]) = _
          rw [hteq]
          exact joinSpaceS_flatten ([chash] ++ [cx]) toks htne
        rw [heq]
        refine ⟨hj.2.1, hj.2.2.1, hj.2.2.2.1, ?_, hj.2.2.2.2.1⟩
        rw [hj.2.2.2.2.2, if_neg htne, ← hteq]
        simp only [lastOr, List.getLast?_singleton]

theorem parse_line_total (t : String) (htr : trimS t = t) (hne : t ≠ "") :
    ∃ c, CommitInfo.parse_line t = .ok c := by
  cases hd : t.data with
  | nil => exact absurd hd (data_ne_nil_of_ne_empty t hne)
  | cons c0 tl =>
    have hc0w : c0.isWhitespace = false := by
      refine trimChars_head t.data c0 ?_
      have h2 : trimChars t.data = t.data := congrArg String.data htr
      rw [h2, hd]
      rfl
    have htokne : tokensOf t ≠ [] := by
      unfold tokensOf
      rw [hd, wsSplitChars, if_neg (by simp [hc0w])]
      intro he
      exact wsSplit_ne_nil tl ([] ++ [c0]) (by simp) (by simpa using he)
    cases htok : tokensOf t with
    | nil => exact absurd htok htokne
    | cons h rest =>
      refine ⟨_, parse_line_eq_of_tokens t h rest (by rw [htr]; exact hne)
        (by rw [htr]; exact htok)⟩

theorem processLines_append_entries : ∀ (lines buf : List String)
    (acc : List CommitEntry),
    processLines lines buf acc = acc ++ processLines lines buf [] := by
  intro lines
  induction lines with
  | nil => intro buf acc; simp [processLines]
  | cons l ls ih =>
    intro buf acc
    rw [processLines_cons, processLines_cons]
    by_cases hbl : trimS l = ""
    · rw [if_pos hbl, if_pos hbl]
      by_cases hc : (decide (buf = []) && decide (ls = [])) = true
      · rw [if_pos hc, if_pos hc]
        exact ih buf acc
      · rw [if_neg hc, if_neg hc]
        exact ih (buf ++ [l]) acc
    · rw [if_neg hbl, if_neg hbl]
      by_cases hsw : strStartsWith (trimS l) "#" = true
      · rw [if_pos hsw, if_pos hsw]
        exact ih (buf ++ [l]) acc
      · rw [if_neg hsw, if_neg hsw]
        cases hp : CommitInfo.parse_line (trimS l) with
        | ok c =>
          show processLines ls [] (acc ++ [CommitEntry.with_comments c buf]) =
            acc ++ processLines ls [] ([] ++ [CommitEntry.with_comments c buf])
          rw [ih [] (acc ++ [CommitEntry.with_comments c buf]),
            ih [] ([] ++ [CommitEntry.with_comments c buf])]
          simp
        | error e =>
          show processLines ls (buf ++ [l]) acc =
            acc ++ processLines ls (buf ++ [l]) []
          exact ih (buf ++ [l]) acc

theorem processLines_wf : ∀ (lines buf : List String) (acc : List CommitEntry),
    (∀ l ∈ buf, commentish l) → (∀ e ∈ acc, entryWF e) →
    ∀ e ∈ processLines lines buf acc, entryWF e := by
  intro lines
  induction lines with
  | nil => intro buf acc _ hacc e he; exact hacc e he
  | cons l ls ih =>
    intro buf acc hbuf hacc e he
    rw [processLines_cons] at he
    by_cases hbl : trimS l = ""
    · rw [if_pos hbl] at he
      by_cases hc : (decide (buf = []) && decide (ls = [])) = true
      · rw [if_pos hc] at he
        exact ih buf acc hbuf hacc e he
      · rw [if_neg hc] at he
        refine ih (buf ++ [l]) acc ?_ hacc e he
        intro x hx
        rcases List.mem_append.mp hx with h2 | h2
        · exact hbuf x h2
        · simp at h2
          rw [h2]
          exact Or.inl hbl
    · rw [if_neg hbl] at he
      by_cases hsw : strStartsWith (trimS l) "#" = true
      · rw [if_pos hsw] at he
        refine ih (buf ++ [l]) acc ?_ hacc e he
        intro x hx
        rcases List.mem_append.mp hx with h2 | h2
        · exact hbuf x h2
        · simp at h2
          rw [h2]
          exact Or.inr hsw
      · rw [if_neg hsw] at he
        cases hp : CommitInfo.parse_line (trimS l) with
        | ok c =>
          rw [hp] at he
          refine ih [] (acc ++ [CommitEntry.with_comments c buf]) (by simp) ?_ e he
          intro e2 he2
          rcases List.mem_append.mp he2 with h2 | h2
          · exact hacc e2 h2
          · simp at h2
            rw [h2]
            refine ⟨hbuf, ?_⟩
            refine parse_line_wf (trimS l) c (trimS_idem l) hbl ?_ hp
            cases hv : strStartsWith (trimS l) "#"
            · rfl
            · exact absurd hv hsw
        | error err =>
          exfalso
          obtain ⟨c2, hc2⟩ := parse_line_total (trimS l) (trimS_idem l) hbl
          rw [hp] at hc2
          cases hc2

theorem processLines_comments_sub : ∀ (lines buf : List String)
    (acc : List CommitEntry) (S : List String),
    (∀ l ∈ buf, l ∈ S) → (∀ e ∈ acc, ∀ l ∈ e.comments, l ∈ S) →
    (∀ l ∈ lines, l ∈ S) →
    ∀ e ∈ processLines lines buf acc, ∀ l2 ∈ e.comments, l2 ∈ S := by
  intro lines
  induction lines with
  | nil => intro buf acc S _ hacc _ e he; exact hacc e he
  | cons l ls ih =>
    intro buf acc S hbuf hacc hlines e he
    rw [processLines_cons] at he
    have hlS : l ∈ S := hlines l (List.mem_cons_self l ls)
    have hlsS : ∀ x ∈ ls, x ∈ S := fun x hx => hlines x (List.mem_cons_of_mem l hx)
    have hbufl : ∀ x ∈ buf ++ [l], x ∈ S := by
      intro x hx
      rcases List.mem_append.mp hx with h2 | h2
      · exact hbuf x h2
      · simp at h2
        rw [h2]
        exact hlS
    by_cases hbl : trimS l = ""
    · rw [if_pos hbl] at he
      by_cases hc : (decide (buf = []) && decide (ls = [])) = true
      · rw [if_pos hc] at he
        exact ih buf acc S hbuf hacc hlsS e he
      · rw [if_neg hc] at he
        exact ih (buf ++ [l]) acc S hbufl hacc hlsS e he
    · rw [if_neg hbl] at he
      by_cases hsw : strStartsWith (trimS l) "#" = true
      · rw [if_pos hsw] at he
        exact ih (buf ++ [l]) acc S hbufl hacc hlsS e he
      · rw [if_neg hsw] at he
        cases hp : CommitInfo.parse_line (trimS l) with
        | ok c =>
          rw [hp] at he
          refine ih [] (acc ++ [CommitEntry.with_comments c buf]) S (by simp) ?_
            hlsS e he
          intro e2 he2
          rcases List.mem_append.mp he2 with h2 | h2
          · exact hacc e2 h2
          · simp at h2
            rw [h2]
            exact hbuf
        | error err =>
          rw [hp] at he
          exact ih (buf ++ [l]) acc S hbufl hacc hlsS e he

theorem processLines_first : ∀ (lines buf : List String) (e1 : CommitEntry)
    (es2 : List CommitEntry),
    processLines lines buf [] = e1 :: es2 →
    (buf ≠ [] → e1.comments.head? = buf.head?) ∧
    (buf = [] → e1.comments = [] ∨
      ∃ l0, lines.head? = some l0 ∧ e1.comments.head? = some l0) := by
  intro lines
  induction lines with
  | nil => intro buf e1 es2 h; simp [processLines] at h
  | cons l ls ih =>
    intro buf e1 es2 h
    rw [processLines_cons] at h
    by_cases hbl : trimS l = ""
    · rw [if_pos hbl] at h
      by_cases hc : (decide (buf = []) && decide (ls = [])) = true
      · simp only [Bool.and_eq_true, decide_eq_true_eq] at hc
        rw [hc.1, hc.2] at h
        rw [if_pos (by simp)] at h
        simp [processLines] at h
      · rw [if_neg hc] at h
        have hih := ih (buf ++ [l]) e1 es2 h
        have hh := hih.1 (by simp)
        constructor
        · intro hbne
          rw [hh, head?_append_left buf [l] hbne]
        · intro hbe
          right
          refine ⟨l, rfl, ?_⟩
          rw [hh, hbe]
          rfl
    · rw [if_neg hbl] at h
      by_cases hsw : strStartsWith (trimS l) "#" = true
      · rw [if_pos hsw] at h
        have hih := ih (buf ++ [l]) e1 es2 h
        have hh := hih.1 (by simp)
        constructor
        · intro hbne
          rw [hh, head?_append_left buf [l] hbne]
        · intro hbe
          right
          refine ⟨l, rfl, ?_⟩
          rw [hh, hbe]
          rfl
      · rw [if_neg hsw] at h
        cases hp : CommitInfo.parse_line (trimS l) with
        | ok c =>
          rw [hp] at h
          have h0 : processLines ls [] ([] ++ [CommitEntry.with_comments c buf]) =
              e1 :: es2 := h
          rw [processLines_append_entries ls []
            ([] ++ [CommitEntry.with_comments c buf])] at h0
          simp only [List.nil_append, List.cons_append] at h0
          injection h0 with h1 h2
          rw [← h1]
          constructor
          · intro _
            rfl
          · intro hbe
            left
            exact hbe
        | error err =>
          rw [hp] at h
          have hih := ih (buf ++ [l]) e1 es2 h
          have hh := hih.1 (by simp)
          constructor
          · intro hbne
            rw [hh, head?_append_left buf [l] hbne]
          · intro hbe
            right
            refine ⟨l, rfl, ?_⟩
            rw [hh, hbe]
            rfl

theorem processLines_block : ∀ (comments : List String) (c : CommitInfo)
    (rest buf : List String) (acc : List CommitEntry),
    (∀ l ∈ comments, commentish l) →
    trimS (CommitInfo.to_line c) = CommitInfo.to_line c →
    CommitInfo.to_line c ≠ "" →
    strStartsWith (CommitInfo.to_line c) "#" = false →
    CommitInfo.parse_line (CommitInfo.to_line c) = .ok c →
    processLines (comments ++ (CommitInfo.to_line c :: rest)) buf acc =
      processLines rest [] (acc ++ [CommitEntry.with_comments c (buf ++ comments)]) := by
  intro comments
  induction comments with
  | nil =>
    intro c rest buf acc _ htr hne hsw hok
    show processLines (CommitInfo.to_line c :: rest) buf acc = _
    rw [processLines_cons, htr, if_neg hne, if_neg (by simp [hsw]), hok]
    simp
  | cons cl cls ih =>
    intro c rest buf acc hcom htr hne hsw hok
    have hcl := hcom cl (List.mem_cons_self cl cls)
    have hcls : ∀ l ∈ cls, commentish l :=
      fun l hl => hcom l (List.mem_cons_of_mem cl hl)
    show processLines (cl :: (cls ++ (CommitInfo.to_line c :: rest))) buf acc = _
    rw [processLines_cons]
    rcases hcl with hb | hs
    · rw [if_pos hb, if_neg (by simp)]
      rw [ih c rest (buf ++ [cl]) acc hcls htr hne hsw hok]
      rw [List.append_assoc]
      rfl
    · have hbne : trimS cl ≠ "" := by
        intro he
        rw [he] at hs
        exact absurd hs (by decide)
      rw [if_neg hbne, if_pos hs]
      rw [ih c rest (buf ++ [cl]) acc hcls htr hne hsw hok]
      rw [List.append_assoc]
      rfl

theorem processLines_entries : ∀ (es acc : List CommitEntry),
    (∀ e ∈ es, (∀ l ∈ e.comments, commentish l) ∧
      trimS (CommitInfo.to_line e.commit) = CommitInfo.to_line e.commit ∧
      CommitInfo.to_line e.commit ≠ "" ∧
      strStartsWith (CommitInfo.to_line e.commit) "#" = false ∧
      CommitInfo.parse_line (CommitInfo.to_line e.commit) = .ok e.commit) →
    processLines (es.flatMap CommitEntry.to_lines) [] acc = acc ++ es := by
  intro es
  induction es with
  | nil => intro acc _; simp [processLines]
  | cons e es2 ih =>
    intro acc h
    have he := h e (List.mem_cons_self e es2)
    have hshape : (e :: es2).flatMap CommitEntry.to_lines =
        e.comments ++ (CommitInfo.to_line e.commit :: es2.flatMap CommitEntry.to_lines) := by
      rw [List.flatMap_cons]
      unfold CommitEntry.to_lines
      rw [List.append_assoc]
      rfl
    rw [hshape]
    rw [processLines_block e.comments e.commit _ [] acc he.1 he.2.1 he.2.2.1
      he.2.2.2.1 he.2.2.2.2]
    have heta : CommitEntry.with_comments e.commit ([] ++ e.comments) = e := rfl
    rw [heta]
    rw [ih (acc ++ [e]) (fun x hx => h x (List.mem_cons_of_mem e hx))]
    simp

theorem extractModelines_cons (l : String) (ls : List String) :
    extractModelines (l :: ls) =
      if isModelineStr l then
        ((l :: (extractModelines ls).1), (extractModelines ls).2)
      else ([], l :: ls) := rfl

theorem extractModelines_spec : ∀ lines : List String,
    (extractModelines lines).1 ++ (extractModelines lines).2 = lines ∧
    (∀ m ∈ (extractModelines lines).1, isModelineStr m = true) ∧
    (∀ r0, (extractModelines lines).2.head? = some r0 → isModelineStr r0 = false) := by
  intro lines
  induction lines with
  | nil => exact ⟨rfl, by simp [extractModelines], by simp [extractModelines]⟩
  | cons l ls ih =>
    rw [extractModelines_cons]
    by_cases hm : isModelineStr l = true
    · rw [if_pos hm]
      refine ⟨?_, ?_, ?_⟩
      · show l :: ((extractModelines ls).1 ++ (extractModelines ls).2) = l :: ls
        rw [ih.1]
      · intro m hmem
        rcases List.mem_cons.mp hmem with h2 | h2
        · rw [h2]; exact hm
        · exact ih.2.1 m h2
      · exact ih.2.2
    · rw [if_neg hm]
      refine ⟨rfl, by simp, ?_⟩
      intro r0 hr0
      injection hr0 with hr2
      rw [← hr2]
      cases hv : isModelineStr l
      · rfl
      · exact absurd hv hm

theorem extract_of_modelines : ∀ (ms rest : List String),
    (∀ m ∈ ms, isModelineStr m = true) →
    (∀ r0, rest.head? = some r0 → isModelineStr r0 = false) →
    extractModelines (ms ++ rest) = (ms, rest) := by
  intro ms
  induction ms with
  | nil =>
    intro rest _ hrest
    cases rest with
    | nil => rfl
    | cons r rs =>
      show extractModelines (r :: rs) = ([], r :: rs)
      rw [extractModelines_cons, if_neg (by simp [hrest r rfl])]
  | cons m ms2 ih =>
    intro rest hms hrest
    show extractModelines (m :: (ms2 ++ rest)) = (m :: ms2, rest)
    rw [extractModelines_cons, if_pos (hms m (List.mem_cons_self m ms2))]
    rw [ih rest (fun x hx => hms x (List.mem_cons_of_mem m hx)) hrest]

theorem flatMap_to_lines_stable (vcs : Vcs) : ∀ es : List CommitEntry,
    (∀ e ∈ es, enrich vcs e.commit = e.commit) →
    es.flatMap (fun e =>
      (CommitEntry.with_comments (enrich vcs e.commit) e.comments).to_lines) =
    es.flatMap CommitEntry.to_lines := by
  intro es
  induction es with
  | nil => intro _; rfl
  | cons e es2 ih =>
    intro h
    rw [List.flatMap_cons, List.flatMap_cons]
    rw [ih (fun x hx => h x (List.mem_cons_of_mem e hx))]
    rw [h e (List.mem_cons_self e es2)]
    rfl

theorem writeLines_stable (vcs : Vcs) (ml : List String) (es : List CommitEntry)
    (hstable : ∀ e ∈ es, enrich vcs e.commit = e.commit) :
    writeLines vcs ml es =
      (if ml = [] then ["# vim: ft=gitbackportcommits"] else ml) ++
      es.flatMap CommitEntry.to_lines := by
  unfold writeLines
  rw [flatMap_to_lines_stable vcs es hstable]

/-- C4: for every well-formed commit-list file (no stray carriage returns)
whose entries the enrichment oracle leaves unchanged (already enriched),
parsing the file and then serialising the result produces a file that parses
back to exactly the same entries — the same commits with each comment block
attached to the same commit it preceded — with the stored modelines emitted
verbatim, or the single default `# vim: ft=gitbackportcommits` modeline when
none were present, and terminated by a trailing newline. -/
theorem parse_serialize_roundtrip (vcs : Vcs) (content : String)
    (ml : List String) (es : List CommitEntry)
    (h1 : read_from_file content = .ok (ml, es))
    (hcr : '\r' ∉ content.data)
    (hstable : ∀ e ∈ es, enrich vcs e.commit = e.commit) :
    read_from_file (write_to_file vcs ml es) =
      .ok ((if ml = [] then ["# vim: ft=gitbackportcommits"] else ml), es) ∧
    (write_to_file vcs ml es).data.getLast? = some '\n' := by
  have hinv : ml = (extractModelines (rustLines content)).1 ∧
      es = processLines (extractModelines (rustLines content)).2 [] [] ∧
      es ≠ [] := by
    unfold read_from_file at h1
    by_cases hemp : processLines (extractModelines (rustLines content)).2 [] [] = []
    · rw [if_pos hemp] at h1
      cases h1
    · rw [if_neg hemp] at h1
      injection h1 with h2
      have hml2 : (extractModelines (rustLines content)).1 = ml :=
        congrArg Prod.fst h2
      have hes2 : processLines (extractModelines (rustLines content)).2 [] [] = es :=
        congrArg Prod.snd h2
      exact ⟨hml2.symm, hes2.symm, fun he => hemp (by rw [hes2, he])⟩
  obtain ⟨hml, hes, hesne⟩ := hinv
  have espec := extractModelines_spec (rustLines content)
  have hwf : ∀ e ∈ es, entryWF e := by
    rw [hes]
    exact processLines_wf _ [] [] (by simp) (by simp)
  have hcomS : ∀ e ∈ es, ∀ l ∈ e.comments, l ∈ rustLines content := by
    rw [hes]
    refine processLines_comments_sub _ [] [] (rustLines content) (by simp) (by simp) ?_
    intro x hx
    rw [← espec.1]
    exact List.mem_append.mpr (Or.inr hx)
  have hlineok : ∀ e ∈ es,
      trimS (CommitInfo.to_line e.commit) = CommitInfo.to_line e.commit ∧
      CommitInfo.to_line e.commit ≠ "" ∧
      strStartsWith (CommitInfo.to_line e.commit) "#" = false ∧
      CommitInfo.parse_line (CommitInfo.to_line e.commit) = .ok e.commit ∧
      (∀ ch ∈ (CommitInfo.to_line e.commit).data,
        ch = ' ' ∨ ch.isWhitespace = false) :=
    fun e he => to_line_ok e.commit (hwf e he).2
  have hW := writeLines_stable vcs ml es hstable
  have hsafe : ∀ l ∈ writeLines vcs ml es,
      (∀ c ∈ l.data, c ≠ '\n') ∧ l.data.getLast? ≠ some '\r' := by
    intro l hl
    rw [hW] at hl
    have hfromRust : ∀ l2 : String, l2 ∈ rustLines content →
        (∀ c ∈ l2.data, c ≠ '\n') ∧ l2.data.getLast? ≠ some '\r' := by
      intro l2 hl2
      refine ⟨rustLines_no_nl content l2 hl2, ?_⟩
      intro hlast
      exact hcr ((rustLines_chars content l2 hl2) '\r' (getLast?_mem_self _ _ hlast))
    have hfromTok : ∀ s : String, (∀ ch ∈ s.data, ch = ' ' ∨ ch.isWhitespace = false) →
        (∀ c ∈ s.data, c ≠ '\n') ∧ s.data.getLast? ≠ some '\r' := by
      intro s hs
      constructor
      · intro c hc he
        rcases hs c hc with h2 | h2
        · rw [he] at h2
          exact absurd h2 (by decide)
        · rw [he] at h2
          exact absurd h2 (by decide)
      · intro hlast
        rcases hs '\r' (getLast?_mem_self _ _ hlast) with h2 | h2
        · exact absurd h2 (by decide)
        · exact absurd h2 (by decide)
    rcases List.mem_append.mp hl with h2 | h2
    · by_cases hmle : ml = []
      · rw [if_pos hmle] at h2
        simp at h2
        rw [h2]
        exact ⟨by decide, by decide⟩
      · rw [if_neg hmle] at h2
        refine hfromRust l ?_
        rw [← espec.1]
        refine List.mem_append.mpr (Or.inl ?_)
        rw [← hml]
        exact h2
    · obtain ⟨e, he, hle⟩ := List.mem_flatMap.mp h2
      unfold CommitEntry.to_lines at hle
      rcases List.mem_append.mp hle with h3 | h3
      · exact hfromRust l (hcomS e he l h3)
      · simp at h3
        rw [h3]
        exact hfromTok _ (hlineok e he).2.2.2.2
  have hWne : writeLines vcs ml es ≠ [] := by
    rw [hW]
    by_cases hmle : ml = []
    · rw [if_pos hmle]
      simp
    · rw [if_neg hmle]
      simp [hmle]
  have hlines : rustLines (write_to_file vcs ml es) = writeLines vcs ml es := by
    unfold rustLines
    show (linesChars (joinSep ['\n'] ((writeLines vcs ml es).map String.data) ++
      ['\n']) []).map String.mk = _
    rw [linesChars_join ((writeLines vcs ml es).map String.data)
      (by intro he; exact hWne (by simpa using he))
      (by
        intro p hp
        obtain ⟨l, hl, hlp⟩ := List.mem_map.mp hp
        obtain ⟨hs1, hs2⟩ := hsafe l hl
        rw [← hlp]
        exact ⟨hs1, hs2⟩)]
    exact map_mk_data _
  have hml_true : ∀ m ∈ (if ml = [] then ["# vim: ft=gitbackportcommits"] else ml),
      isModelineStr m = true := by
    intro m hm
    by_cases hmle : ml = []
    · rw [if_pos hmle] at hm
      simp at hm
      rw [hm]
      decide
    · rw [if_neg hmle] at hm
      refine espec.2.1 m ?_
      rw [← hml]
      exact hm
  obtain ⟨e1, es2, hes12⟩ : ∃ e1 es2, es = e1 :: es2 := by
    cases hc : es with
    | nil => exact absurd hc hesne
    | cons a b => exact ⟨a, b, rfl⟩
  have hto1 := hlineok e1 (by rw [hes12]; exact List.mem_cons_self e1 es2)
  have hto1head : (CommitInfo.to_line e1.commit).data.head? ≠ some '#' :=
    startsWith_hash_head _ hto1.2.2.1
  have hnotml : ∀ s : String, trimS s = s → s.data.head? ≠ some '#' →
      isModelineStr s = false := by
    intro s htr hh
    unfold isModelineStr
    rw [htr]
    rw [startsWith_false_of_head s "# vim:" hh rfl]
    rw [startsWith_false_of_head s "# vi:" hh rfl]
    rfl
  have hbodyhead : ∀ r0, (es.flatMap CommitEntry.to_lines).head? = some r0 →
      isModelineStr r0 = false := by
    intro r0 hr0
    rw [hes12, List.flatMap_cons] at hr0
    cases hc1 : e1.comments with
    | nil =>
      unfold CommitEntry.to_lines at hr0
      rw [hc1] at hr0
      simp only [List.nil_append, List.cons_append] at hr0
      injection hr0 with hr2
      rw [← hr2]
      exact hnotml _ hto1.1 hto1head
    | cons c1 cs1 =>
      have hfst := processLines_first (extractModelines (rustLines content)).2 []
        e1 es2 (by rw [← hes]; exact hes12)
      rcases hfst.2 rfl with h2 | ⟨l0, hl0, hl02⟩
      · rw [h2] at hc1
        cases hc1
      · unfold CommitEntry.to_lines at hr0
        rw [hc1] at hr0
        simp only [List.cons_append] at hr0
        injection hr0 with hr2
        rw [hc1] at hl02
        injection hl02 with hl03
        rw [← hr2, hl03]
        exact espec.2.2 l0 hl0
  constructor
  · simp only [read_from_file]
    rw [hlines, hW]
    rw [extract_of_modelines _ _ hml_true hbodyhead]
    rw [processLines_entries es [] (fun e he => ⟨(hwf e he).1, (hlineok e he).1,
      (hlineok e he).2.1, (hlineok e he).2.2.1, (hlineok e he).2.2.2.1⟩)]
    simp only [List.nil_append]
    rw [if_neg hesne]
  · show (joinSep ['\n'] ((writeLines vcs ml es).map String.data) ++
      ['\n']).getLast? = some '\n'
    simp

theorem parse_serialize_roundtrip_witness :
    read_from_file
      "# vim: ft=gitbackportcommits\n# a note\nabc1234 I0123456789012345678901234567890123456789 Fix the thing\n" =
      .ok (["# vim: ft=gitbackportcommits"],
        [CommitEntry.with_comments
          { hash := "abc1234",
            change_id := some "I0123456789012345678901234567890123456789",
            title := some "Fix the thing" } ["# a note"]]) ∧
    ('\r' ∉
      ("# vim: ft=gitbackportcommits\n# a note\nabc1234 I0123456789012345678901234567890123456789 Fix the thing\n" : String).data) ∧
    (read_from_file (write_to_file vcsNone ["# vim: ft=gitbackportcommits"]
        [CommitEntry.with_comments
          { hash := "abc1234",
            change_id := some "I0123456789012345678901234567890123456789",
            title := some "Fix the thing" } ["# a note"]]) =
      .ok ((if (["# vim: ft=gitbackportcommits"] : List String) = []
            then ["# vim: ft=gitbackportcommits"]
            else ["# vim: ft=gitbackportcommits"]),
        [CommitEntry.with_comments
          { hash := "abc1234",
            change_id := some "I0123456789012345678901234567890123456789",
            title := some "Fix the thing" } ["# a note"]]) ∧
     (write_to_file vcsNone ["# vim: ft=gitbackportcommits"]
        [CommitEntry.with_comments
          { hash := "abc1234",
            change_id := some "I0123456789012345678901234567890123456789",
            title := some "Fix the thing" } ["# a note"]]).data.getLast? =
        some '\n') :=
  ⟨by rfl, by decide,
   parse_serialize_roundtrip vcsNone
     "# vim: ft=gitbackportcommits\n# a note\nabc1234 I0123456789012345678901234567890123456789 Fix the thing\n"
     ["# vim: ft=gitbackportcommits"]
     [CommitEntry.with_comments
       { hash := "abc1234",
         change_id := some "I0123456789012345678901234567890123456789",
         title := some "Fix the thing" } ["# a note"]]
     (by rfl) (by decide) (by decide)⟩
